import Mathlib

/-!
Verification of the schema-resolution and endpoint-synthesis core of the
swagger-typescript-api-generator repository (src/generator.ts, src/parser.ts,
src/types.ts).  The TypeScript functions are shallowly embedded as executable
Lean definitions: JavaScript insertion-ordered objects become association
lists, `null`/optional fields become `Option`, and the mutable
`TypeDefinitions` accumulator becomes explicit state passing.  The recursion
of `processSchema` over a schema tree is bounded by an explicit `fuel`
parameter that decreases only at recursive child resolutions; a run with
enough fuel for the (finite) input tree performs exactly the source's
recursion, and an exhausted-fuel call falls back to the scalar case and
appends nothing.
-/

/-- One generated declaration: `{ name, content, dependencies }`
(src/types.ts, `TypeDefinition`). -/
structure TypeDefinition where
  name : String
  content : String
  dependencies : List String
deriving DecidableEq, Repr

/-- The accumulator of generated declarations (src/types.ts,
`TypeDefinitions`). -/
structure TypeDefinitions where
  interfaces : List TypeDefinition
  types : List TypeDefinition
  enums : List TypeDefinition
  apiClasses : List TypeDefinition
deriving DecidableEq, Repr

/-- A JSON value that can appear as a member of a schema's `enum` array
(the TypeScript side types it `any[]`; JSON enum members are strings,
numbers, booleans or null; numbers are modelled as integers, which covers
every value the claims mention). -/
inductive EnumValue where
  | str (s : String)
  | num (n : Int)
  | bool (b : Bool)
  | null
deriving DecidableEq, Repr

/-- The parsed schema node (src/types.ts, `ApiSchema`).  `properties` is an
insertion-ordered mapping, modelled as an association list. -/
inductive ApiSchema where
  | mk (name type : String) (format : Option String) (enum : Option (List EnumValue))
      (nullable : Bool) (properties : List (String × ApiSchema)) (required : List String)
      (items : Option ApiSchema) (allOf oneOf anyOf : Option (List ApiSchema))
      (reference : Option String)

def ApiSchema.name : ApiSchema → String
  | ⟨n, _, _, _, _, _, _, _, _, _, _, _⟩ => n

def ApiSchema.type : ApiSchema → String
  | ⟨_, t, _, _, _, _, _, _, _, _, _, _⟩ => t

def ApiSchema.format : ApiSchema → Option String
  | ⟨_, _, f, _, _, _, _, _, _, _, _, _⟩ => f

def ApiSchema.enum : ApiSchema → Option (List EnumValue)
  | ⟨_, _, _, e, _, _, _, _, _, _, _, _⟩ => e

def ApiSchema.nullable : ApiSchema → Bool
  | ⟨_, _, _, _, nl, _, _, _, _, _, _, _⟩ => nl

def ApiSchema.properties : ApiSchema → List (String × ApiSchema)
  | ⟨_, _, _, _, _, ps, _, _, _, _, _, _⟩ => ps

def ApiSchema.required : ApiSchema → List String
  | ⟨_, _, _, _, _, _, r, _, _, _, _, _⟩ => r

def ApiSchema.items : ApiSchema → Option ApiSchema
  | ⟨_, _, _, _, _, _, _, i, _, _, _, _⟩ => i

def ApiSchema.allOf : ApiSchema → Option (List ApiSchema)
  | ⟨_, _, _, _, _, _, _, _, a, _, _, _⟩ => a

def ApiSchema.oneOf : ApiSchema → Option (List ApiSchema)
  | ⟨_, _, _, _, _, _, _, _, _, o, _, _⟩ => o

def ApiSchema.anyOf : ApiSchema → Option (List ApiSchema)
  | ⟨_, _, _, _, _, _, _, _, _, _, a, _⟩ => a

def ApiSchema.reference : ApiSchema → Option String
  | ⟨_, _, _, _, _, _, _, _, _, _, _, r⟩ => r

/-! ## String helpers (src/generator.ts lines 549-657) -/

/-- JavaScript `\w` (word character): `[A-Za-z0-9_]`. -/
def isWordChar (c : Char) : Bool := c.isAlpha || c.isDigit || c == '_'

/-- JavaScript `\s` restricted to the ASCII whitespace the inputs contain. -/
def isSpaceChar (c : Char) : Bool := c == ' ' || c == '\t' || c == '\n' || c == '\r'

/-- The delimiter class `[-_\s]` used by `toPascalCase`'s `split`. -/
def isDelimChar (c : Char) : Bool := c == '-' || c == '_' || isSpaceChar c

/-- `String.split` as a structural recursion over the character list,
with JavaScript `split` semantics (empty segments between consecutive
delimiters are kept); the core library's `String.split` is well-founded
recursion, which the kernel cannot evaluate. -/
def splitChars (p : Char → Bool) : List Char → List (List Char)
  | [] => [[]]
  | c :: rest =>
    match splitChars p rest with
    | [] => [[]]
    | w :: ws => if p c then [] :: w :: ws else (c :: w) :: ws

/-- `toLowerCase` (character-wise, structural). -/
def toLowerStr (s : String) : String := String.mk (s.toList.map Char.toLower)

/-- `toUpperCase` (character-wise, structural). -/
def toUpperStr (s : String) : String := String.mk (s.toList.map Char.toUpper)

/-- `endsWith` (structural). -/
def endsWithChars (s suffix : String) : Bool := suffix.toList.isSuffixOf s.toList

/-- `Array.prototype.join(sep)` (structural; the core `String.intercalate`
does not kernel-evaluate). -/
def joinSep (sep : String) : List String → String
  | [] => ""
  | [x] => x
  | x :: rest => x ++ sep ++ joinSep sep rest

/-- Concatenation of a list of strings. -/
def concatStrings (l : List String) : String := l.foldl (fun a b => a ++ b) ""

/-- The regex test `/[A-Z][a-z]+[A-Z]/`: from some position, an uppercase
letter, one or more lowercase letters, then an uppercase letter.
`humpTail2` scans the lowercase run after its first lowercase letter. -/
def humpTail2 : List Char → Bool
  | [] => false
  | c :: rest => c.isUpper || (c.isLower && humpTail2 rest)

/-- After the initial uppercase letter: at least one lowercase letter, then
(after more lowercase letters) an uppercase letter. -/
def humpTail : List Char → Bool
  | [] => false
  | c :: rest => c.isLower && humpTail2 rest

/-- Whether `/[A-Z][a-z]+[A-Z]/` matches anywhere in the character list. -/
def hasCamelHump : List Char → Bool
  | [] => false
  | c :: rest => (c.isUpper && humpTail rest) || hasCamelHump rest

/-- `word.charAt(0).toUpperCase() + word.slice(1).toLowerCase()` (the
standard-conversion branch of `toPascalCase`). -/
def capFirstLowerRest (w : String) : String :=
  match w.toList with
  | [] => ""
  | c :: rest => String.mk (c.toUpper :: rest.map Char.toLower)

/-- `word.charAt(0).toUpperCase() + word.slice(1)` (the case-preserving
branch of `toPascalCase`). -/
def capFirstKeepRest (w : String) : String :=
  match w.toList with
  | [] => ""
  | c :: rest => String.mk (c.toUpper :: rest)

/-- src/generator.ts lines 601-625, `toPascalCase`. -/
def toPascalCase (str : String) : String :=
  if str.toList.any Char.isUpper then
    concatStrings ((splitChars isDelimChar str.toList).map (fun word =>
      if (word.headD ' ').isUpper then String.mk word else capFirstKeepRest (String.mk word)))
  else
    concatStrings ((splitChars isDelimChar str.toList).map (fun word =>
      capFirstLowerRest (String.mk word)))

/-- src/generator.ts lines 632-635, `toCamelCase`. -/
def toCamelCase (str : String) : String :=
  let pascal := toPascalCase str
  match pascal.toList with
  | [] => ""
  | c :: rest => String.mk (c.toLower :: rest)

/-- src/generator.ts lines 642-657, `sanitizeTypeName`.  The regex tests
`/DTO$/`, `/[A-Z][a-z]+[A-Z]/` and `/^[A-Z]/` become `endsWith`,
`hasCamelHump` and a first-character test; `replace(/[^\w]/g, '')` and
`replace(/[^\w\s]/g, '')` become character filters. -/
def sanitizeTypeName (name : String) : String :=
  if endsWithChars name "DTO" || hasCamelHump name.toList then
    String.mk (name.toList.filter isWordChar)
  else if (name.toList.headD ' ').isUpper then
    String.mk (name.toList.filter isWordChar)
  else
    toPascalCase (String.mk (name.toList.filter (fun c => isWordChar c || isSpaceChar c)))

/-- src/generator.ts lines 549-568, `toTsType`.  The optional `type`
parameter is `Option String`; the JavaScript falsiness test `!type` also
catches the empty string. -/
def toTsType (type : Option String) (format : Option String) : String :=
  match type with
  | none => "any"
  | some t =>
    if t = "" then "any"
    else
      let l := toLowerStr t
      if l = "integer" then (if format = some "int64" then "bigint" else "number")
      else if l = "number" then (if format = some "int64" then "bigint" else "number")
      else if l = "string" then
        if format = some "date" then "Date"
        else if format = some "date-time" then "Date"
        else if format = some "binary" then "Blob"
        else "string"
      else if l = "boolean" then "boolean"
      else if l = "array" then "any[]"
      else "Record<string, any>"

def basicTypesList : List String :=
  ["string", "number", "boolean", "any", "Date", "void", "null", "undefined", "Blob"]

/-- src/generator.ts lines 575-594, `isBasicType`, on the reversed character
list so the recursion (peeling a trailing `[]`) is structural. -/
def isBasicTypeRev : List Char → Bool
  | ']' :: '[' :: rest => isBasicTypeRev rest
  | l => basicTypesList.contains (String.mk l.reverse)

def isBasicType (typeName : String) : Bool :=
  isBasicTypeRev typeName.toList.reverse

/-! ## Enum-member rendering (src/generator.ts lines 148-179) -/

/-- JavaScript `String(value)` on an enum member. -/
def strOf : EnumValue → String
  | .str s => s
  | .num n => toString n
  | .bool b => if b then "true" else "false"
  | .null => "null"

/-- `String(value).replace(/[^a-zA-Z0-9_]/g, '_')`: the enum-member key. -/
def enumKeyOf (v : EnumValue) : String :=
  String.mk ((strOf v).toList.map (fun c =>
    if c.isAlpha || c.isDigit || c == '_' then c else '_'))

def jsonEscapeChar (c : Char) : String :=
  if c == '"' then "\\\""
  else if c == '\\' then "\\\\"
  else if c == '\n' then "\\n"
  else if c == '\r' then "\\r"
  else if c == '\t' then "\\t"
  else String.mk [c]

/-- `JSON.stringify` on an enum member value. -/
def jsonStringify : EnumValue → String
  | .str s => "\"" ++ String.join (s.toList.map jsonEscapeChar) ++ "\""
  | .num n => toString n
  | .bool b => if b then "true" else "false"
  | .null => "null"

/-- `typeof value === 'string'`. -/
def isStringValue : EnumValue → Bool
  | .str _ => true
  | _ => false

/-! ## The schema resolver (src/generator.ts lines 85-362) -/

/-- src/generator.ts lines 125-140, `findExistingType`: scan the
concatenation `interfaces ++ types ++ enums` and return the first
declaration whose name equals the looked-up name. -/
def findExistingType (name : String) (td : TypeDefinitions) : Option String :=
  match (td.interfaces ++ td.types ++ td.enums).find? (fun d => d.name == name) with
  | some d => some d.name
  | none => none

/-- src/generator.ts lines 148-179, `processEnumSchema`. -/
def processEnumSchema (schema : ApiSchema) (td : TypeDefinitions) :
    String × TypeDefinitions :=
  let name := sanitizeTypeName schema.name
  let enumValues := schema.enum.getD []
  let isStringEnum := enumValues.all isStringValue
  let enumContent :=
    if isStringEnum then
      "export enum " ++ name ++ " \x7b\n" ++
        concatStrings (enumValues.map (fun v =>
          "  " ++ enumKeyOf v ++ " = \"" ++ strOf v ++ "\",\n")) ++
        "\x7d"
    else
      "export type " ++ name ++ " = " ++
        joinSep " | " (enumValues.map jsonStringify) ++ ";"
  (name, { td with enums := td.enums ++ [⟨name, enumContent, []⟩] })

/-- The body of the property loop of `processObjectSchema`
(src/generator.ts lines 194-207): the accumulator triple is
(interfaceContent, dependencies, typeDefinitions). -/
def objectPropStep (resolve : ApiSchema → TypeDefinitions → String × TypeDefinitions)
    (required : List String) (acc : String × List String × TypeDefinitions)
    (prop : String × ApiSchema) : String × List String × TypeDefinitions :=
  let r := resolve prop.2 acc.2.2
  let isRequired := required.contains prop.1
  let nullable := if prop.2.nullable then " | null" else ""
  (acc.1 ++ "  " ++ prop.1 ++ (if isRequired then "" else "?") ++ ": " ++ r.1 ++
      nullable ++ ";\n",
    (if isBasicType r.1 then acc.2.1 else acc.2.1 ++ [r.1]),
    r.2)

/-- src/generator.ts lines 187-218, `processObjectSchema`; the recursive
call on each property schema is the abstracted `resolve`. -/
def processObjectSchema (resolve : ApiSchema → TypeDefinitions → String × TypeDefinitions)
    (schema : ApiSchema) (td : TypeDefinitions) : String × TypeDefinitions :=
  let name := sanitizeTypeName schema.name
  let r := schema.properties.foldl (objectPropStep resolve schema.required)
    ("export interface " ++ name ++ " \x7b\n", [], td)
  let interfaceContent := r.1 ++ "\x7d"
  (name, { r.2.2 with interfaces := r.2.2.interfaces ++ [⟨name, interfaceContent, r.2.1⟩] })

/-- src/generator.ts lines 226-251, `processArraySchema`. -/
def processArraySchema (resolve : ApiSchema → TypeDefinitions → String × TypeDefinitions)
    (schema : ApiSchema) (td : TypeDefinitions) : String × TypeDefinitions :=
  match schema.items with
  | none => ("any[]", td)
  | some items =>
    let r := resolve items td
    let name := sanitizeTypeName schema.name
    let dependencies := if isBasicType r.1 then [] else [r.1]
    let arrayTypeContent := "export type " ++ name ++ " = " ++ r.1 ++ "[];"
    (name, { r.2 with types := r.2.types ++ [⟨name, arrayTypeContent, dependencies⟩] })

/-- The member loop shared by the three composition processors
(src/generator.ts lines 270-276, 307-313, 344-350): returns the component
type names, the collected dependencies, and the threaded accumulator. -/
def resolveMembers (resolve : ApiSchema → TypeDefinitions → String × TypeDefinitions) :
    List ApiSchema → TypeDefinitions → List String × List String × TypeDefinitions
  | [], td => ([], [], td)
  | c :: rest, td =>
    let r := resolve c td
    let r2 := resolveMembers resolve rest r.2
    (r.1 :: r2.1, (if isBasicType r.1 then [] else [r.1]) ++ r2.2.1, r2.2.2)

/-- src/generator.ts lines 259-288, `processAllOfSchema`. -/
def processAllOfSchema (resolve : ApiSchema → TypeDefinitions → String × TypeDefinitions)
    (schema : ApiSchema) (td : TypeDefinitions) : String × TypeDefinitions :=
  match schema.allOf with
  | none => ("any", td)
  | some members =>
    let name := sanitizeTypeName schema.name
    let r := resolveMembers resolve members td
    let typeContent := "export type " ++ name ++ " = " ++
      joinSep " & " r.1 ++ ";"
    (name, { r.2.2 with types := r.2.2.types ++ [⟨name, typeContent, r.2.1⟩] })

/-- src/generator.ts lines 296-325, `processOneOfSchema`. -/
def processOneOfSchema (resolve : ApiSchema → TypeDefinitions → String × TypeDefinitions)
    (schema : ApiSchema) (td : TypeDefinitions) : String × TypeDefinitions :=
  match schema.oneOf with
  | none => ("any", td)
  | some members =>
    let name := sanitizeTypeName schema.name
    let r := resolveMembers resolve members td
    let typeContent := "export type " ++ name ++ " = " ++
      joinSep " | " r.1 ++ ";"
    (name, { r.2.2 with types := r.2.2.types ++ [⟨name, typeContent, r.2.1⟩] })

/-- src/generator.ts lines 333-362, `processAnyOfSchema` (identical to
`processOneOfSchema` except that it reads `anyOf`). -/
def processAnyOfSchema (resolve : ApiSchema → TypeDefinitions → String × TypeDefinitions)
    (schema : ApiSchema) (td : TypeDefinitions) : String × TypeDefinitions :=
  match schema.anyOf with
  | none => ("any", td)
  | some members =>
    let name := sanitizeTypeName schema.name
    let r := resolveMembers resolve members td
    let typeContent := "export type " ++ name ++ " = " ++
      joinSep " | " r.1 ++ ";"
    (name, { r.2.2 with types := r.2.2.types ++ [⟨name, typeContent, r.2.1⟩] })

/-- src/generator.ts lines 85-117, `processSchema`: the dispatch, in the
source's order: (1) `reference`, (2) existing declaration, (3) non-empty
`enum`, (4) object-shaped, (5) array with items, (6) non-empty `allOf`,
(7) non-empty `oneOf`, (8) non-empty `anyOf`, (9) scalar fallback.
`fuel` bounds only the recursion depth: it is spent exclusively on child
resolutions, and an exhausted call degrades to the (non-emitting) scalar
fallback. -/
def processSchema : Nat → ApiSchema → TypeDefinitions → String × TypeDefinitions
  | 0, schema, td =>
    -- Fuel exhausted: only the non-recursive prefix of the dispatch
    -- (reference, memoization, scalar fallback) can run; nothing is emitted.
    (match schema.reference with
      | some r => (r, td)
      | none =>
        match findExistingType schema.name td with
        | some t => (t, td)
        | none => (toTsType (some schema.type) schema.format, td))
  | fuel' + 1, schema, td =>
    match schema.reference with
    | some r => (r, td)
    | none =>
      match findExistingType schema.name td with
      | some t => (t, td)
      | none =>
        if (schema.enum.getD []).length > 0 then
          processEnumSchema schema td
        else if schema.type = "object" ∨ schema.properties.length > 0 then
          processObjectSchema (fun c tdc => processSchema fuel' c tdc) schema td
        else if schema.type = "array" ∧ schema.items.isSome then
          processArraySchema (fun c tdc => processSchema fuel' c tdc) schema td
        else if (schema.allOf.getD []).length > 0 then
          processAllOfSchema (fun c tdc => processSchema fuel' c tdc) schema td
        else if (schema.oneOf.getD []).length > 0 then
          processOneOfSchema (fun c tdc => processSchema fuel' c tdc) schema td
        else if (schema.anyOf.getD []).length > 0 then
          processAnyOfSchema (fun c tdc => processSchema fuel' c tdc) schema td
        else
          (toTsType (some schema.type) schema.format, td)

/-! ## Endpoint data model (src/types.ts) and synthesizer
(src/generator.ts lines 14-77 and 370-541) -/

/-- src/types.ts, `ApiParameter`.  The TypeScript field `in` is a reserved
word in Lean and is modelled as `location`. -/
structure ApiParameter where
  name : String
  location : String
  required : Bool
  description : String
  schema : Option ApiSchema

/-- The `requestBody` component of src/types.ts, `ApiEndpoint`. -/
structure ApiRequestBody where
  required : Bool
  contentType : String
  schema : Option ApiSchema

/-- src/types.ts, `ApiResponse`. -/
structure ApiResponse where
  description : String
  schema : Option ApiSchema

/-- src/types.ts, `ApiEndpoint`; `responses` is an insertion-ordered
mapping from status code. -/
structure ApiEndpoint where
  path : String
  method : String
  operationId : String
  summary : String
  description : String
  parameters : List ApiParameter
  requestBody : Option ApiRequestBody
  responses : List (String × ApiResponse)
  tags : List String

/-- src/types.ts, `ApiPath`. -/
structure ApiPath where
  endpoints : List ApiEndpoint

structure SpecInfo where
  title : String
  version : String
  description : String

structure SpecServer where
  url : String
  description : String

structure SpecComponents where
  schemas : List (String × ApiSchema)

/-- src/types.ts, `ParsedSpec`; `paths` and `components.schemas` are
insertion-ordered mappings. -/
structure ParsedSpec where
  info : SpecInfo
  servers : List SpecServer
  basePath : String
  paths : List (String × ApiPath)
  components : SpecComponents

/-- The endpoint-collection step of `groupEndpointsByTag`
(src/generator.ts lines 57-61). -/
def allEndpoints (parsedSpec : ParsedSpec) : List ApiEndpoint :=
  (parsedSpec.paths.map (fun p => p.2.endpoints)).flatten

/-- `endpoint.tags.length > 0 ? endpoint.tags : ['default']`
(src/generator.ts line 65). -/
def effectiveTags (endpoint : ApiEndpoint) : List String :=
  if endpoint.tags.length > 0 then endpoint.tags else ["default"]

/-- `endpointsByTag[tag].push(endpoint)`, creating the key on first use
(src/generator.ts lines 67-73); a JavaScript object with string keys
preserves insertion order, so the record is an association list. -/
def pushToGroup (groups : List (String × List ApiEndpoint)) (tag : String)
    (endpoint : ApiEndpoint) : List (String × List ApiEndpoint) :=
  if groups.any (fun g => g.1 == tag) then
    groups.map (fun g => if g.1 == tag then (g.1, g.2 ++ [endpoint]) else g)
  else
    groups ++ [(tag, [endpoint])]

/-- src/generator.ts lines 52-77, `groupEndpointsByTag`. -/
def groupEndpointsByTag (parsedSpec : ParsedSpec) : List (String × List ApiEndpoint) :=
  (allEndpoints parsedSpec).foldl (fun groups endpoint =>
    (effectiveTags endpoint).foldl (fun gs tag => pushToGroup gs tag endpoint) groups) []

/-- The TypeScript type of an endpoint parameter:
`p.schema ? toTsType(p.schema.type, p.schema.format) : 'any'`
(src/generator.ts lines 417-419 and 431-433). -/
def paramTsType (p : ApiParameter) : String :=
  match p.schema with
  | some s => toTsType (some s.type) s.format
  | none => "any"

/-- src/generator.ts lines 395-541, `generateEndpointMethod`: a literal
transcription of the string builder.  Braces that are text are written with
`\x7b`/`\x7d`, apostrophes with `\x27` and backticks with `\x60`. -/
def generateEndpointMethod (endpoint : ApiEndpoint) : String :=
  let methodName := endpoint.operationId
  let path := endpoint.path
  let method := toUpperStr endpoint.method
  let queryParams := endpoint.parameters.filter (fun p => p.location == "query")
  let pathParams := endpoint.parameters.filter (fun p => p.location == "path")
  let headerParams := endpoint.parameters.filter (fun p => p.location == "header")
  let jsDocHead := "  /**\n" ++ "   * " ++ endpoint.summary ++ "\n" ++
    (if endpoint.description ≠ "" then "   * " ++ endpoint.description ++ "\n" else "")
  let pathParamDocs := concatStrings (pathParams.map (fun p =>
    "   * @param " ++ p.name ++ " " ++ p.description ++ "\n"))
  let methodJsDoc := jsDocHead ++ pathParamDocs ++
    (if queryParams.length > 0 then "   * @param queryParams Query parameters\n" else "") ++
    (match endpoint.requestBody with
      | some _ => "   * @param data Request body data\n"
      | none => "") ++
    (if headerParams.length > 0 then "   * @param headers Custom headers\n" else "") ++
    "   * @param options Request options\n" ++
    "   */\n"
  let mp0 := joinSep ", " (pathParams.map (fun p => p.name ++ ": " ++ paramTsType p))
  let mp1 :=
    if queryParams.length > 0 then
      (if mp0 ≠ "" then mp0 ++ ", " else mp0) ++ "queryParams: \x7b " ++
        joinSep "; " (queryParams.map (fun p =>
          p.name ++ (if p.required then "" else "?") ++ ": " ++ paramTsType p)) ++ " \x7d"
    else mp0
  let mp2 :=
    match endpoint.requestBody with
    | some _ => (if mp1 ≠ "" then mp1 ++ ", " else mp1) ++ "data: any"
    | none => mp1
  let mp3 :=
    if headerParams.length > 0 then
      (if mp2 ≠ "" then mp2 ++ ", " else mp2) ++ "headers?: Record<string, string>"
    else mp2
  let methodParams := (if mp3 ≠ "" then mp3 ++ ", " else mp3) ++ "options?: RequestOptions"
  let mc1 := methodJsDoc ++ "  async " ++ toCamelCase methodName ++ "(" ++ methodParams ++
    "): Promise<any> \x7b\n" ++
    "    let url = this.baseUrl + \x27" ++ path ++ "\x27;\n"
  let mc2 :=
    if pathParams.length > 0 then
      mc1 ++ "\n    // Replace path parameters\n" ++
        concatStrings (pathParams.map (fun param =>
          "    url = url.replace(\x27\x7b" ++ param.name ++
            "\x7d\x27, encodeURIComponent(String(" ++ param.name ++ ")));\n"))
    else mc1
  let mc3 :=
    if queryParams.length > 0 then
      mc2 ++ "\n    // Add query parameters\n" ++
        "    const searchParams = new URLSearchParams();\n" ++
        concatStrings (queryParams.map (fun param =>
          "    if (queryParams." ++ param.name ++ " !== undefined) \x7b\n" ++
            "      searchParams.append(\x27" ++ param.name ++ "\x27, String(queryParams." ++
            param.name ++ "));\n" ++
            "    \x7d\n")) ++
        "    const queryString = searchParams.toString();\n" ++
        "    if (queryString) \x7b\n" ++
        "      url += \x60?$\x7bqueryString\x7d\x60;\n" ++
        "    \x7d\n"
    else mc2
  let mc4 := mc3 ++ "\n    // Prepare request options\n" ++
    "    const fetchOptions: RequestInit = \x7b\n" ++
    "      method: \x27" ++ method ++ "\x27,\n" ++
    "      ...options,\n" ++
    "      headers: \x7b\n" ++
    "        \x27Content-Type\x27: \x27application/json\x27,\n"
  let mc5 := mc4 ++
    concatStrings (headerParams.map (fun param =>
      if param.required then
        "        \x27" ++ param.name ++ "\x27: headers?.[\x27" ++ param.name ++
          "\x27] || \x27\x27,\n"
      else
        "        ...(headers?.[\x27" ++ param.name ++ "\x27] ? \x7b \x27" ++ param.name ++
          "\x27: headers[\x27" ++ param.name ++ "\x27] \x7d : \x7b\x7d),\n"))
  let mc6 := mc5 ++ "        ...headers,\n" ++ "      \x7d,\n"
  let mc7 := mc6 ++
    (match endpoint.requestBody with
      | some _ => "      body: JSON.stringify(data),\n"
      | none => "")
  let mc8 := mc7 ++ "    \x7d;\n\n"
  let mc9 := mc8 ++ "    // Make request\n" ++
    "    const response = await fetch(url, fetchOptions);\n" ++
    "    const contentType = response.headers.get(\x27Content-Type\x27) || \x27\x27;\n\n"
  let mc10 := mc9 ++ "    // Handle response\n" ++
    "    if (!response.ok) \x7b\n" ++
    "      throw new Error(\x60API error: $\x7bresponse.status\x7d $\x7bawait response.text()\x7d\x60);\n" ++
    "    \x7d\n\n"
  let mc11 := mc10 ++ "    // Parse response body\n" ++
    "    if (contentType.includes(\x27application/json\x27)) \x7b\n" ++
    "      return await response.json();\n" ++
    "    \x7d else \x7b\n" ++
    "      return await response.text();\n" ++
    "    \x7d\n"
  mc11 ++ "  \x7d\n"

/-- src/generator.ts lines 370-388, `generateApiClass`. -/
def generateApiClass (apiClassName : String) (endpoints : List ApiEndpoint) : String :=
  "export class " ++ apiClassName ++ " \x7b\n" ++
    "  private baseUrl: string;\n\n" ++
    "  constructor(baseUrl: string = \x27\x27) \x7b\n" ++
    "    this.baseUrl = baseUrl;\n" ++
    "  \x7d\n\n" ++
    concatStrings (endpoints.map (fun endpoint => generateEndpointMethod endpoint ++ "\n")) ++
    "\x7d\n"

/-- The client declaration pushed for one tag group
(src/generator.ts lines 30-42). -/
def apiClassOfGroup (group : String × List ApiEndpoint) : TypeDefinition :=
  ⟨toPascalCase group.1 ++ "Api",
    generateApiClass (toPascalCase group.1 ++ "Api") group.2,
    []⟩

def emptyTypeDefinitions : TypeDefinitions := ⟨[], [], [], []⟩

/-- src/generator.ts lines 14-45, `generateTypeDefinitions`: process every
component schema, then push one client class per tag group.  `fuel` bounds
the schema recursion depth exactly as in `processSchema`. -/
def generateTypeDefinitions (fuel : Nat) (parsedSpec : ParsedSpec) : TypeDefinitions :=
  let td1 := parsedSpec.components.schemas.foldl
    (fun td entry => (processSchema fuel entry.2 td).2) emptyTypeDefinitions
  (groupEndpointsByTag parsedSpec).foldl
    (fun td group => { td with apiClasses := td.apiClasses ++ [apiClassOfGroup group] }) td1

/-! ## Proof infrastructure: the combined declaration space and what one
resolver call may append to it -/

/-- The combined structural+alias+enumerated declaration space scanned by
`findExistingType`. -/
def combinedDefs (td : TypeDefinitions) : List TypeDefinition :=
  td.interfaces ++ td.types ++ td.enums

def combinedNames (td : TypeDefinitions) : List String :=
  (combinedDefs td).map TypeDefinition.name

theorem findExistingType_eq_none_iff (name : String) (td : TypeDefinitions) :
    findExistingType name td = none ↔ ∀ d ∈ combinedDefs td, d.name ≠ name := by
  unfold findExistingType combinedDefs
  constructor
  · intro h d hd
    cases hfind : (td.interfaces ++ td.types ++ td.enums).find? (fun d => d.name == name) with
    | some d' => rw [hfind] at h; simp at h
    | none =>
      have := List.find?_eq_none.mp hfind d hd
      simpa using this
  · intro h
    have hnone : (td.interfaces ++ td.types ++ td.enums).find? (fun d => d.name == name) = none :=
      List.find?_eq_none.mpr (fun d hd => by simpa using h d hd)
    rw [hnone]

theorem findExistingType_of_mem {name : String} {td : TypeDefinitions}
    (h : ∃ d ∈ combinedDefs td, d.name = name) :
    findExistingType name td = some name := by
  unfold findExistingType
  obtain ⟨d, hd, hdn⟩ := h
  have hsome : ((td.interfaces ++ td.types ++ td.enums).find? (fun d => d.name == name)).isSome := by
    rw [List.find?_isSome]
    exact ⟨d, hd, by simpa using hdn⟩
  obtain ⟨d', hd'⟩ := Option.isSome_iff_exists.mp hsome
  have hp := List.find?_some hd'
  rw [hd']
  simp only [beq_iff_eq] at hp
  simp [hp]

theorem name_not_mem_of_findExistingType_none {name : String} {td : TypeDefinitions}
    (h : findExistingType name td = none) : name ∉ combinedNames td := by
  intro hmem
  obtain ⟨d, hd, hdn⟩ := List.mem_map.mp hmem
  exact (findExistingType_eq_none_iff name td).mp h d hd hdn

/-- After one call, the accumulator has only grown: each of the three
declaration lists scanned by `findExistingType` has been appended to (with
entries whose names satisfy `P`), and `apiClasses` is untouched. -/
def AppendsOnly (P : String → Prop) (td td' : TypeDefinitions) : Prop :=
  ∃ ni nt ne,
    td'.interfaces = td.interfaces ++ ni ∧
    td'.types = td.types ++ nt ∧
    td'.enums = td.enums ++ ne ∧
    td'.apiClasses = td.apiClasses ∧
    ∀ d, (d ∈ ni ∨ d ∈ nt ∨ d ∈ ne) → P d.name

theorem appendsOnly_refl (P : String → Prop) (td : TypeDefinitions) :
    AppendsOnly P td td := by
  exact ⟨[], [], [], by simp, by simp, by simp, rfl, by simp⟩

theorem appendsOnly_trans {P : String → Prop} {td₁ td₂ td₃ : TypeDefinitions}
    (h1 : AppendsOnly P td₁ td₂) (h2 : AppendsOnly P td₂ td₃) :
    AppendsOnly P td₁ td₃ := by
  obtain ⟨ni, nt, ne, hi, ht, he, ha, hp⟩ := h1
  obtain ⟨ni', nt', ne', hi', ht', he', ha', hp'⟩ := h2
  refine ⟨ni ++ ni', nt ++ nt', ne ++ ne', ?_, ?_, ?_, ?_, ?_⟩
  · rw [hi', hi, List.append_assoc]
  · rw [ht', ht, List.append_assoc]
  · rw [he', he, List.append_assoc]
  · rw [ha', ha]
  · intro d hd
    rcases hd with hd | hd | hd <;> rcases List.mem_append.mp hd with hd' | hd'
    · exact hp d (Or.inl hd')
    · exact hp' d (Or.inl hd')
    · exact hp d (Or.inr (Or.inl hd'))
    · exact hp' d (Or.inr (Or.inl hd'))
    · exact hp d (Or.inr (Or.inr hd'))
    · exact hp' d (Or.inr (Or.inr hd'))

theorem appendsOnly_mono {P Q : String → Prop} {td td' : TypeDefinitions}
    (hPQ : ∀ n, P n → Q n) (h : AppendsOnly P td td') : AppendsOnly Q td td' := by
  obtain ⟨ni, nt, ne, hi, ht, he, ha, hp⟩ := h
  exact ⟨ni, nt, ne, hi, ht, he, ha, fun d hd => hPQ _ (hp d hd)⟩

theorem appendsOnly_push_interface (P : String → Prop) (td : TypeDefinitions)
    (n c : String) (ds : List String) (h : P n) :
    AppendsOnly P td { td with interfaces := td.interfaces ++ [⟨n, c, ds⟩] } := by
  refine ⟨[⟨n, c, ds⟩], [], [], rfl, by simp, by simp, rfl, ?_⟩
  rintro d' (hd | hd | hd) <;> simp_all

theorem appendsOnly_push_types (P : String → Prop) (td : TypeDefinitions)
    (n c : String) (ds : List String) (h : P n) :
    AppendsOnly P td { td with types := td.types ++ [⟨n, c, ds⟩] } := by
  refine ⟨[], [⟨n, c, ds⟩], [], by simp, rfl, by simp, rfl, ?_⟩
  rintro d' (hd | hd | hd) <;> simp_all

theorem appendsOnly_push_enums (P : String → Prop) (td : TypeDefinitions)
    (n c : String) (ds : List String) (h : P n) :
    AppendsOnly P td { td with enums := td.enums ++ [⟨n, c, ds⟩] } := by
  refine ⟨[], [], [⟨n, c, ds⟩], by simp, by simp, rfl, rfl, ?_⟩
  rintro d' (hd | hd | hd) <;> simp_all

theorem perm_shuffle {α : Type} [DecidableEq α] (I T E ni nt ne : List α) :
    ((I ++ ni) ++ (T ++ nt) ++ (E ++ ne)).Perm ((I ++ T ++ E) ++ (ni ++ nt ++ ne)) := by
  rw [List.perm_iff_count]
  intro a
  simp [List.count_append]
  ring

theorem AppendsOnly.combinedNames_perm {P : String → Prop} {td td' : TypeDefinitions}
    (h : AppendsOnly P td td') :
    ∃ new, (combinedNames td').Perm (combinedNames td ++ new) ∧ ∀ n ∈ new, P n := by
  obtain ⟨ni, nt, ne, hi, ht, he, _, hp⟩ := h
  refine ⟨(ni ++ nt ++ ne).map TypeDefinition.name, ?_, ?_⟩
  · unfold combinedNames combinedDefs
    rw [hi, ht, he]
    have := perm_shuffle td.interfaces td.types td.enums ni nt ne
    have hperm := this.map TypeDefinition.name
    simpa using hperm
  · intro n hn
    obtain ⟨d, hd, hdn⟩ := List.mem_map.mp hn
    subst hdn
    apply hp
    rcases List.mem_append.mp hd with hd' | hd'
    · rcases List.mem_append.mp hd' with hd'' | hd''
      · exact Or.inl hd''
      · exact Or.inr (Or.inl hd'')
    · exact Or.inr (Or.inr hd')

/-! ## Names occurring in a schema tree, and trees that cannot collide with
their ancestors -/

/-- The immediate child schema nodes the resolver may recurse into. -/
def schemaChildren (s : ApiSchema) : List ApiSchema :=
  s.properties.map Prod.snd ++ s.items.toList ++ (s.allOf.getD []) ++
    (s.oneOf.getD []) ++ (s.anyOf.getD [])

/-- `TreeName s n`: `n` is the sanitized name of some node of the tree
rooted at `s`.  Every declaration a resolver call appends carries such a
name. -/
inductive TreeName : ApiSchema → String → Prop where
  | root (s : ApiSchema) : TreeName s (sanitizeTypeName s.name)
  | child (s c : ApiSchema) (n : String) (hc : c ∈ schemaChildren s)
      (h : TreeName c n) : TreeName s n

/-- `GoodTree anc s`: every node of the tree rooted at `s` has a name fixed
by `sanitizeTypeName`, and no node shares its name with a proper ancestor
(`anc` lists the names of the ancestors above `s`). -/
inductive GoodTree : List String → ApiSchema → Prop where
  | mk (anc : List String) (s : ApiSchema)
      (hfix : sanitizeTypeName s.name = s.name)
      (hanc : s.name ∉ anc)
      (hch : ∀ c ∈ schemaChildren s, GoodTree (s.name :: anc) c) :
      GoodTree anc s

theorem GoodTree.fix {anc : List String} {s : ApiSchema} (h : GoodTree anc s) :
    sanitizeTypeName s.name = s.name := by
  cases h with
  | mk _ _ hfix _ _ => exact hfix

theorem GoodTree.children {anc : List String} {s : ApiSchema} (h : GoodTree anc s) :
    ∀ c ∈ schemaChildren s, GoodTree (s.name :: anc) c := by
  cases h with
  | mk _ _ _ _ hch => exact hch

theorem TreeName.not_mem_anc {s : ApiSchema} {n : String} (h : TreeName s n) :
    ∀ anc, GoodTree anc s → n ∉ anc := by
  induction h with
  | root s =>
    intro anc hg
    cases hg with
    | mk _ _ hfix hanc _ => rw [hfix]; exact hanc
  | child s c n hc _ ih =>
    intro anc hg
    cases hg with
    | mk _ _ hfix hanc hch =>
      intro hmem
      exact ih (s.name :: anc) (hch c hc) (List.mem_cons_of_mem _ hmem)

/-! ## What each emitting branch appends -/

theorem objectPropStep_third (resolve : ApiSchema → TypeDefinitions → String × TypeDefinitions)
    (required : List String) (acc : String × List String × TypeDefinitions)
    (prop : String × ApiSchema) :
    (objectPropStep resolve required acc prop).2.2 = (resolve prop.2 acc.2.2).2 := by
  rfl

theorem objectFold_appends (resolve : ApiSchema → TypeDefinitions → String × TypeDefinitions)
    (required : List String) (P : ApiSchema → String → Prop) :
    ∀ props : List (String × ApiSchema),
      (∀ p ∈ props, ∀ td', AppendsOnly (P p.2) td' (resolve p.2 td').2) →
      ∀ cont deps td,
        AppendsOnly (fun n => ∃ p ∈ props, P p.2 n) td
          ((props.foldl (objectPropStep resolve required) (cont, deps, td)).2.2) := by
  intro props
  induction props with
  | nil =>
    intro _ cont deps td
    simpa using appendsOnly_refl _ td
  | cons p rest ih =>
    intro H cont deps td
    rw [List.foldl_cons]
    have hstep : objectPropStep resolve required (cont, deps, td) p =
        ((objectPropStep resolve required (cont, deps, td) p).1,
          (objectPropStep resolve required (cont, deps, td) p).2.1,
          (resolve p.2 td).2) := by
      rfl
    rw [hstep]
    have h1 : AppendsOnly (fun n => ∃ q ∈ p :: rest, P q.2 n) td (resolve p.2 td).2 := by
      refine appendsOnly_mono ?_ (H p (List.mem_cons_self p rest) td)
      intro n hn
      exact ⟨p, List.mem_cons_self p rest, hn⟩
    have h2 : AppendsOnly (fun n => ∃ q ∈ rest, P q.2 n) (resolve p.2 td).2
        ((rest.foldl (objectPropStep resolve required)
          ((objectPropStep resolve required (cont, deps, td) p).1,
            (objectPropStep resolve required (cont, deps, td) p).2.1,
            (resolve p.2 td).2)).2.2) :=
      ih (fun q hq td' => H q (List.mem_cons_of_mem p hq) td') _ _ _
    refine appendsOnly_trans h1 (appendsOnly_mono ?_ h2)
    intro n hn
    obtain ⟨q, hq, hqn⟩ := hn
    exact ⟨q, List.mem_cons_of_mem p hq, hqn⟩

theorem resolveMembers_appends (resolve : ApiSchema → TypeDefinitions → String × TypeDefinitions)
    (P : ApiSchema → String → Prop) :
    ∀ members : List ApiSchema,
      (∀ c ∈ members, ∀ td', AppendsOnly (P c) td' (resolve c td').2) →
      ∀ td,
        AppendsOnly (fun n => ∃ c ∈ members, P c n) td
          (resolveMembers resolve members td).2.2 := by
  intro members
  induction members with
  | nil =>
    intro _ td
    simpa [resolveMembers] using appendsOnly_refl _ td
  | cons c rest ih =>
    intro H td
    have h1 : AppendsOnly (fun n => ∃ q ∈ c :: rest, P q n) td (resolve c td).2 := by
      refine appendsOnly_mono ?_ (H c (List.mem_cons_self c rest) td)
      intro n hn
      exact ⟨c, List.mem_cons_self c rest, hn⟩
    have h2 : AppendsOnly (fun n => ∃ q ∈ rest, P q n) (resolve c td).2
        (resolveMembers resolve rest (resolve c td).2).2.2 :=
      ih (fun q hq td' => H q (List.mem_cons_of_mem c hq) td') _
    have hshape : (resolveMembers resolve (c :: rest) td).2.2 =
        (resolveMembers resolve rest (resolve c td).2).2.2 := by
      rfl
    rw [hshape]
    refine appendsOnly_trans h1 (appendsOnly_mono ?_ h2)
    intro n hn
    obtain ⟨q, hq, hqn⟩ := hn
    exact ⟨q, List.mem_cons_of_mem c hq, hqn⟩

theorem prop_snd_mem_children {s : ApiSchema} {p : String × ApiSchema}
    (hp : p ∈ s.properties) : p.2 ∈ schemaChildren s := by
  unfold schemaChildren
  refine List.mem_append.mpr (Or.inl ?_)
  refine List.mem_append.mpr (Or.inl ?_)
  refine List.mem_append.mpr (Or.inl ?_)
  refine List.mem_append.mpr (Or.inl ?_)
  exact List.mem_map_of_mem Prod.snd hp

theorem items_mem_children {s : ApiSchema} {i : ApiSchema}
    (hi : s.items = some i) : i ∈ schemaChildren s := by
  unfold schemaChildren
  refine List.mem_append.mpr (Or.inl ?_)
  refine List.mem_append.mpr (Or.inl ?_)
  refine List.mem_append.mpr (Or.inl ?_)
  refine List.mem_append.mpr (Or.inr ?_)
  simp [hi]

theorem allOf_mem_children {s : ApiSchema} {ms : List ApiSchema} {c : ApiSchema}
    (h : s.allOf = some ms) (hc : c ∈ ms) : c ∈ schemaChildren s := by
  unfold schemaChildren
  refine List.mem_append.mpr (Or.inl ?_)
  refine List.mem_append.mpr (Or.inl ?_)
  refine List.mem_append.mpr (Or.inr ?_)
  simp [h, hc]

theorem oneOf_mem_children {s : ApiSchema} {ms : List ApiSchema} {c : ApiSchema}
    (h : s.oneOf = some ms) (hc : c ∈ ms) : c ∈ schemaChildren s := by
  unfold schemaChildren
  refine List.mem_append.mpr (Or.inl ?_)
  refine List.mem_append.mpr (Or.inr ?_)
  simp [h, hc]

theorem anyOf_mem_children {s : ApiSchema} {ms : List ApiSchema} {c : ApiSchema}
    (h : s.anyOf = some ms) (hc : c ∈ ms) : c ∈ schemaChildren s := by
  unfold schemaChildren
  refine List.mem_append.mpr (Or.inr ?_)
  simp [h, hc]


/-! ## Unfolding equations for `processSchema` -/

theorem processSchema_reference (fuel : Nat) (s : ApiSchema) (td : TypeDefinitions)
    {r : String} (h : s.reference = some r) : processSchema fuel s td = (r, td) := by
  cases fuel with
  | zero => simp only [processSchema, h]
  | succ fuel' => simp only [processSchema, h]

theorem processSchema_existing (fuel : Nat) (s : ApiSchema) (td : TypeDefinitions)
    {t : String} (h1 : s.reference = none) (h2 : findExistingType s.name td = some t) :
    processSchema fuel s td = (t, td) := by
  cases fuel with
  | zero => simp only [processSchema, h1, h2]
  | succ fuel' => simp only [processSchema, h1, h2]

theorem processSchema_zero_scalar (s : ApiSchema) (td : TypeDefinitions)
    (h1 : s.reference = none) (h2 : findExistingType s.name td = none) :
    processSchema 0 s td = (toTsType (some s.type) s.format, td) := by
  simp only [processSchema, h1, h2]

theorem processSchema_succ_dispatch (fuel' : Nat) (s : ApiSchema) (td : TypeDefinitions)
    (h1 : s.reference = none) (h2 : findExistingType s.name td = none) :
    processSchema (fuel' + 1) s td =
      if (s.enum.getD []).length > 0 then processEnumSchema s td
      else if s.type = "object" ∨ s.properties.length > 0 then
        processObjectSchema (fun c tdc => processSchema fuel' c tdc) s td
      else if s.type = "array" ∧ s.items.isSome then
        processArraySchema (fun c tdc => processSchema fuel' c tdc) s td
      else if (s.allOf.getD []).length > 0 then
        processAllOfSchema (fun c tdc => processSchema fuel' c tdc) s td
      else if (s.oneOf.getD []).length > 0 then
        processOneOfSchema (fun c tdc => processSchema fuel' c tdc) s td
      else if (s.anyOf.getD []).length > 0 then
        processAnyOfSchema (fun c tdc => processSchema fuel' c tdc) s td
      else (toTsType (some s.type) s.format, td) := by
  simp only [processSchema, h1, h2]

/-! ## The result shape of each emitting branch -/

theorem processEnumSchema_pair (s : ApiSchema) (td : TypeDefinitions) :
    ∃ content, processEnumSchema s td =
      (sanitizeTypeName s.name,
        { td with enums := td.enums ++ [⟨sanitizeTypeName s.name, content, []⟩] }) :=
  ⟨_, rfl⟩

theorem processEnumSchema_fst (s : ApiSchema) (td : TypeDefinitions) :
    (processEnumSchema s td).1 = sanitizeTypeName s.name := by
  obtain ⟨content, heq⟩ := processEnumSchema_pair s td
  rw [heq]

theorem processEnumSchema_snd (s : ApiSchema) (td : TypeDefinitions) :
    ∃ content, (processEnumSchema s td).2 =
      { td with enums := td.enums ++ [⟨sanitizeTypeName s.name, content, []⟩] } := by
  obtain ⟨content, heq⟩ := processEnumSchema_pair s td
  exact ⟨content, by rw [heq]⟩

theorem processObjectSchema_pair
    (resolve : ApiSchema → TypeDefinitions → String × TypeDefinitions)
    (s : ApiSchema) (td : TypeDefinitions) :
    ∃ content deps, processObjectSchema resolve s td =
      (sanitizeTypeName s.name,
        { (s.properties.foldl (objectPropStep resolve s.required)
            ("export interface " ++ sanitizeTypeName s.name ++ " \x7b\n", [], td)).2.2 with
          interfaces := (s.properties.foldl (objectPropStep resolve s.required)
            ("export interface " ++ sanitizeTypeName s.name ++ " \x7b\n", [], td)).2.2.interfaces ++
            [⟨sanitizeTypeName s.name, content, deps⟩] }) :=
  ⟨_, _, rfl⟩

theorem processObjectSchema_fst
    (resolve : ApiSchema → TypeDefinitions → String × TypeDefinitions)
    (s : ApiSchema) (td : TypeDefinitions) :
    (processObjectSchema resolve s td).1 = sanitizeTypeName s.name := by
  obtain ⟨content, deps, heq⟩ := processObjectSchema_pair resolve s td
  rw [heq]

theorem processObjectSchema_snd
    (resolve : ApiSchema → TypeDefinitions → String × TypeDefinitions)
    (s : ApiSchema) (td : TypeDefinitions) :
    ∃ content deps, (processObjectSchema resolve s td).2 =
      { (s.properties.foldl (objectPropStep resolve s.required)
          ("export interface " ++ sanitizeTypeName s.name ++ " \x7b\n", [], td)).2.2 with
        interfaces := (s.properties.foldl (objectPropStep resolve s.required)
          ("export interface " ++ sanitizeTypeName s.name ++ " \x7b\n", [], td)).2.2.interfaces ++
          [⟨sanitizeTypeName s.name, content, deps⟩] } := by
  obtain ⟨content, deps, heq⟩ := processObjectSchema_pair resolve s td
  exact ⟨content, deps, by rw [heq]⟩

theorem processArraySchema_none (resolve : ApiSchema → TypeDefinitions → String × TypeDefinitions)
    (s : ApiSchema) (td : TypeDefinitions) (hit : s.items = none) :
    processArraySchema resolve s td = ("any[]", td) := by
  unfold processArraySchema
  rw [hit]

theorem processArraySchema_pair
    (resolve : ApiSchema → TypeDefinitions → String × TypeDefinitions)
    (s : ApiSchema) (td : TypeDefinitions) {i : ApiSchema} (hit : s.items = some i) :
    ∃ content deps, processArraySchema resolve s td =
      (sanitizeTypeName s.name,
        { (resolve i td).2 with types := (resolve i td).2.types ++
            [⟨sanitizeTypeName s.name, content, deps⟩] }) := by
  unfold processArraySchema
  rw [hit]
  exact ⟨_, _, rfl⟩

theorem processArraySchema_fst
    (resolve : ApiSchema → TypeDefinitions → String × TypeDefinitions)
    (s : ApiSchema) (td : TypeDefinitions) {i : ApiSchema} (hit : s.items = some i) :
    (processArraySchema resolve s td).1 = sanitizeTypeName s.name := by
  obtain ⟨content, deps, heq⟩ := processArraySchema_pair resolve s td hit
  rw [heq]

theorem processArraySchema_snd
    (resolve : ApiSchema → TypeDefinitions → String × TypeDefinitions)
    (s : ApiSchema) (td : TypeDefinitions) {i : ApiSchema} (hit : s.items = some i) :
    ∃ content deps, (processArraySchema resolve s td).2 =
      { (resolve i td).2 with types := (resolve i td).2.types ++
          [⟨sanitizeTypeName s.name, content, deps⟩] } := by
  obtain ⟨content, deps, heq⟩ := processArraySchema_pair resolve s td hit
  exact ⟨content, deps, by rw [heq]⟩

theorem processAllOfSchema_pair
    (resolve : ApiSchema → TypeDefinitions → String × TypeDefinitions)
    (s : ApiSchema) (td : TypeDefinitions) {ms : List ApiSchema} (h : s.allOf = some ms) :
    ∃ content deps, processAllOfSchema resolve s td =
      (sanitizeTypeName s.name,
        { (resolveMembers resolve ms td).2.2 with
          types := (resolveMembers resolve ms td).2.2.types ++
            [⟨sanitizeTypeName s.name, content, deps⟩] }) := by
  unfold processAllOfSchema
  rw [h]
  exact ⟨_, _, rfl⟩

theorem processAllOfSchema_fst
    (resolve : ApiSchema → TypeDefinitions → String × TypeDefinitions)
    (s : ApiSchema) (td : TypeDefinitions) {ms : List ApiSchema} (h : s.allOf = some ms) :
    (processAllOfSchema resolve s td).1 = sanitizeTypeName s.name := by
  obtain ⟨content, deps, heq⟩ := processAllOfSchema_pair resolve s td h
  rw [heq]

theorem processAllOfSchema_snd
    (resolve : ApiSchema → TypeDefinitions → String × TypeDefinitions)
    (s : ApiSchema) (td : TypeDefinitions) {ms : List ApiSchema} (h : s.allOf = some ms) :
    ∃ content deps, (processAllOfSchema resolve s td).2 =
      { (resolveMembers resolve ms td).2.2 with
        types := (resolveMembers resolve ms td).2.2.types ++
          [⟨sanitizeTypeName s.name, content, deps⟩] } := by
  obtain ⟨content, deps, heq⟩ := processAllOfSchema_pair resolve s td h
  exact ⟨content, deps, by rw [heq]⟩

theorem processOneOfSchema_pair
    (resolve : ApiSchema → TypeDefinitions → String × TypeDefinitions)
    (s : ApiSchema) (td : TypeDefinitions) {ms : List ApiSchema} (h : s.oneOf = some ms) :
    ∃ content deps, processOneOfSchema resolve s td =
      (sanitizeTypeName s.name,
        { (resolveMembers resolve ms td).2.2 with
          types := (resolveMembers resolve ms td).2.2.types ++
            [⟨sanitizeTypeName s.name, content, deps⟩] }) := by
  unfold processOneOfSchema
  rw [h]
  exact ⟨_, _, rfl⟩

theorem processOneOfSchema_fst
    (resolve : ApiSchema → TypeDefinitions → String × TypeDefinitions)
    (s : ApiSchema) (td : TypeDefinitions) {ms : List ApiSchema} (h : s.oneOf = some ms) :
    (processOneOfSchema resolve s td).1 = sanitizeTypeName s.name := by
  obtain ⟨content, deps, heq⟩ := processOneOfSchema_pair resolve s td h
  rw [heq]

theorem processOneOfSchema_snd
    (resolve : ApiSchema → TypeDefinitions → String × TypeDefinitions)
    (s : ApiSchema) (td : TypeDefinitions) {ms : List ApiSchema} (h : s.oneOf = some ms) :
    ∃ content deps, (processOneOfSchema resolve s td).2 =
      { (resolveMembers resolve ms td).2.2 with
        types := (resolveMembers resolve ms td).2.2.types ++
          [⟨sanitizeTypeName s.name, content, deps⟩] } := by
  obtain ⟨content, deps, heq⟩ := processOneOfSchema_pair resolve s td h
  exact ⟨content, deps, by rw [heq]⟩

theorem processAnyOfSchema_pair
    (resolve : ApiSchema → TypeDefinitions → String × TypeDefinitions)
    (s : ApiSchema) (td : TypeDefinitions) {ms : List ApiSchema} (h : s.anyOf = some ms) :
    ∃ content deps, processAnyOfSchema resolve s td =
      (sanitizeTypeName s.name,
        { (resolveMembers resolve ms td).2.2 with
          types := (resolveMembers resolve ms td).2.2.types ++
            [⟨sanitizeTypeName s.name, content, deps⟩] }) := by
  unfold processAnyOfSchema
  rw [h]
  exact ⟨_, _, rfl⟩

theorem processAnyOfSchema_fst
    (resolve : ApiSchema → TypeDefinitions → String × TypeDefinitions)
    (s : ApiSchema) (td : TypeDefinitions) {ms : List ApiSchema} (h : s.anyOf = some ms) :
    (processAnyOfSchema resolve s td).1 = sanitizeTypeName s.name := by
  obtain ⟨content, deps, heq⟩ := processAnyOfSchema_pair resolve s td h
  rw [heq]

theorem processAnyOfSchema_snd
    (resolve : ApiSchema → TypeDefinitions → String × TypeDefinitions)
    (s : ApiSchema) (td : TypeDefinitions) {ms : List ApiSchema} (h : s.anyOf = some ms) :
    ∃ content deps, (processAnyOfSchema resolve s td).2 =
      { (resolveMembers resolve ms td).2.2 with
        types := (resolveMembers resolve ms td).2.2.types ++
          [⟨sanitizeTypeName s.name, content, deps⟩] } := by
  obtain ⟨content, deps, heq⟩ := processAnyOfSchema_pair resolve s td h
  exact ⟨content, deps, by rw [heq]⟩

/-! ## Each emitting branch only appends tree-named declarations -/

theorem treeName_of_eq_root {s : ApiSchema} :
    ∀ n : String, n = sanitizeTypeName s.name → TreeName s n :=
  fun _ hn => hn ▸ TreeName.root s

theorem processEnumSchema_appends (s : ApiSchema) (td : TypeDefinitions) :
    AppendsOnly (TreeName s) td (processEnumSchema s td).2 := by
  obtain ⟨content, heq⟩ := processEnumSchema_snd s td
  rw [heq]
  exact appendsOnly_mono treeName_of_eq_root
    (appendsOnly_push_enums (fun n => n = sanitizeTypeName s.name) td
      (sanitizeTypeName s.name) content [] rfl)

theorem processObjectSchema_appends
    (resolve : ApiSchema → TypeDefinitions → String × TypeDefinitions)
    (s : ApiSchema) (td : TypeDefinitions)
    (H : ∀ c ∈ schemaChildren s, ∀ td', AppendsOnly (TreeName c) td' (resolve c td').2) :
    AppendsOnly (TreeName s) td (processObjectSchema resolve s td).2 := by
  obtain ⟨content, deps, heq⟩ := processObjectSchema_snd resolve s td
  rw [heq]
  have hfold := objectFold_appends resolve s.required (fun c n => TreeName c n) s.properties
    (fun p hp td' => H p.2 (prop_snd_mem_children hp) td')
    ("export interface " ++ sanitizeTypeName s.name ++ " \x7b\n") [] td
  have hchild : ∀ n : String, (∃ p ∈ s.properties, TreeName p.2 n) → TreeName s n := by
    intro n hn
    obtain ⟨p, hp, hpn⟩ := hn
    exact TreeName.child s p.2 n (prop_snd_mem_children hp) hpn
  exact appendsOnly_trans (appendsOnly_mono hchild hfold)
    (appendsOnly_mono treeName_of_eq_root
      (appendsOnly_push_interface (fun n => n = sanitizeTypeName s.name) _
        (sanitizeTypeName s.name) content deps rfl))

theorem processArraySchema_appends
    (resolve : ApiSchema → TypeDefinitions → String × TypeDefinitions)
    (s : ApiSchema) (td : TypeDefinitions)
    (H : ∀ c ∈ schemaChildren s, ∀ td', AppendsOnly (TreeName c) td' (resolve c td').2) :
    AppendsOnly (TreeName s) td (processArraySchema resolve s td).2 := by
  cases hit : s.items with
  | none =>
    rw [processArraySchema_none resolve s td hit]
    exact appendsOnly_refl _ _
  | some i =>
    obtain ⟨content, deps, heq⟩ := processArraySchema_snd resolve s td hit
    rw [heq]
    have hchild : ∀ n : String, TreeName i n → TreeName s n :=
      fun n hn => TreeName.child s i n (items_mem_children hit) hn
    exact appendsOnly_trans (appendsOnly_mono hchild (H i (items_mem_children hit) td))
      (appendsOnly_mono treeName_of_eq_root
        (appendsOnly_push_types (fun n => n = sanitizeTypeName s.name) _
          (sanitizeTypeName s.name) content deps rfl))

theorem processAllOfSchema_appends
    (resolve : ApiSchema → TypeDefinitions → String × TypeDefinitions)
    (s : ApiSchema) (td : TypeDefinitions)
    (H : ∀ c ∈ schemaChildren s, ∀ td', AppendsOnly (TreeName c) td' (resolve c td').2) :
    AppendsOnly (TreeName s) td (processAllOfSchema resolve s td).2 := by
  cases hall : s.allOf with
  | none =>
    have heq : processAllOfSchema resolve s td = ("any", td) := by
      unfold processAllOfSchema
      rw [hall]
    rw [heq]
    exact appendsOnly_refl _ _
  | some ms =>
    obtain ⟨content, deps, heq⟩ := processAllOfSchema_snd resolve s td hall
    rw [heq]
    have hfold := resolveMembers_appends resolve (fun c n => TreeName c n) ms
      (fun c hc td' => H c (allOf_mem_children hall hc) td') td
    have hchild : ∀ n : String, (∃ c ∈ ms, TreeName c n) → TreeName s n := by
      intro n hn
      obtain ⟨c, hc, hcn⟩ := hn
      exact TreeName.child s c n (allOf_mem_children hall hc) hcn
    exact appendsOnly_trans (appendsOnly_mono hchild hfold)
      (appendsOnly_mono treeName_of_eq_root
        (appendsOnly_push_types (fun n => n = sanitizeTypeName s.name) _
          (sanitizeTypeName s.name) content deps rfl))

theorem processOneOfSchema_appends
    (resolve : ApiSchema → TypeDefinitions → String × TypeDefinitions)
    (s : ApiSchema) (td : TypeDefinitions)
    (H : ∀ c ∈ schemaChildren s, ∀ td', AppendsOnly (TreeName c) td' (resolve c td').2) :
    AppendsOnly (TreeName s) td (processOneOfSchema resolve s td).2 := by
  cases hone : s.oneOf with
  | none =>
    have heq : processOneOfSchema resolve s td = ("any", td) := by
      unfold processOneOfSchema
      rw [hone]
    rw [heq]
    exact appendsOnly_refl _ _
  | some ms =>
    obtain ⟨content, deps, heq⟩ := processOneOfSchema_snd resolve s td hone
    rw [heq]
    have hfold := resolveMembers_appends resolve (fun c n => TreeName c n) ms
      (fun c hc td' => H c (oneOf_mem_children hone hc) td') td
    have hchild : ∀ n : String, (∃ c ∈ ms, TreeName c n) → TreeName s n := by
      intro n hn
      obtain ⟨c, hc, hcn⟩ := hn
      exact TreeName.child s c n (oneOf_mem_children hone hc) hcn
    exact appendsOnly_trans (appendsOnly_mono hchild hfold)
      (appendsOnly_mono treeName_of_eq_root
        (appendsOnly_push_types (fun n => n = sanitizeTypeName s.name) _
          (sanitizeTypeName s.name) content deps rfl))

theorem processAnyOfSchema_appends
    (resolve : ApiSchema → TypeDefinitions → String × TypeDefinitions)
    (s : ApiSchema) (td : TypeDefinitions)
    (H : ∀ c ∈ schemaChildren s, ∀ td', AppendsOnly (TreeName c) td' (resolve c td').2) :
    AppendsOnly (TreeName s) td (processAnyOfSchema resolve s td).2 := by
  cases hany : s.anyOf with
  | none =>
    have heq : processAnyOfSchema resolve s td = ("any", td) := by
      unfold processAnyOfSchema
      rw [hany]
    rw [heq]
    exact appendsOnly_refl _ _
  | some ms =>
    obtain ⟨content, deps, heq⟩ := processAnyOfSchema_snd resolve s td hany
    rw [heq]
    have hfold := resolveMembers_appends resolve (fun c n => TreeName c n) ms
      (fun c hc td' => H c (anyOf_mem_children hany hc) td') td
    have hchild : ∀ n : String, (∃ c ∈ ms, TreeName c n) → TreeName s n := by
      intro n hn
      obtain ⟨c, hc, hcn⟩ := hn
      exact TreeName.child s c n (anyOf_mem_children hany hc) hcn
    exact appendsOnly_trans (appendsOnly_mono hchild hfold)
      (appendsOnly_mono treeName_of_eq_root
        (appendsOnly_push_types (fun n => n = sanitizeTypeName s.name) _
          (sanitizeTypeName s.name) content deps rfl))

/-- Every resolver call only appends declarations, each carrying the
sanitized name of some node of the resolved tree, and never touches the
client-class list. -/
theorem processSchema_appends : ∀ (fuel : Nat) (s : ApiSchema) (td : TypeDefinitions),
    AppendsOnly (TreeName s) td (processSchema fuel s td).2 := by
  intro fuel
  induction fuel with
  | zero =>
    intro s td
    cases href : s.reference with
    | some r =>
      rw [processSchema_reference 0 s td href]
      exact appendsOnly_refl _ _
    | none =>
      cases hfind : findExistingType s.name td with
      | some t =>
        rw [processSchema_existing 0 s td href hfind]
        exact appendsOnly_refl _ _
      | none =>
        rw [processSchema_zero_scalar s td href hfind]
        exact appendsOnly_refl _ _
  | succ fuel' ih =>
    intro s td
    cases href : s.reference with
    | some r =>
      rw [processSchema_reference _ s td href]
      exact appendsOnly_refl _ _
    | none =>
      cases hfind : findExistingType s.name td with
      | some t =>
        rw [processSchema_existing _ s td href hfind]
        exact appendsOnly_refl _ _
      | none =>
        rw [processSchema_succ_dispatch fuel' s td href hfind]
        split_ifs with h1 h2 h3 h4 h5 h6
        · exact processEnumSchema_appends s td
        · exact processObjectSchema_appends _ s td (fun c _ td' => ih c td')
        · exact processArraySchema_appends _ s td (fun c _ td' => ih c td')
        · exact processAllOfSchema_appends _ s td (fun c _ td' => ih c td')
        · exact processOneOfSchema_appends _ s td (fun c _ td' => ih c td')
        · exact processAnyOfSchema_appends _ s td (fun c _ td' => ih c td')
        · exact appendsOnly_refl _ _

/-! ## Preservation of name-uniqueness -/

theorem nodup_append_singleton {l : List String} {n : String}
    (hnd : l.Nodup) (hn : n ∉ l) : (l ++ [n]).Nodup := by
  rw [List.nodup_append]
  exact ⟨hnd, List.nodup_singleton n, fun a ha hb => hn ((List.mem_singleton.mp hb) ▸ ha)⟩

theorem combinedNames_push_interface (td : TypeDefinitions) (d : TypeDefinition) :
    (combinedNames { td with interfaces := td.interfaces ++ [d] }).Perm
      (combinedNames td ++ [d.name]) := by
  unfold combinedNames combinedDefs
  rw [List.perm_iff_count]
  intro a
  simp [List.count_append, List.count_cons]
  omega

theorem combinedNames_push_types (td : TypeDefinitions) (d : TypeDefinition) :
    (combinedNames { td with types := td.types ++ [d] }).Perm
      (combinedNames td ++ [d.name]) := by
  unfold combinedNames combinedDefs
  rw [List.perm_iff_count]
  intro a
  simp [List.count_append, List.count_cons]

theorem combinedNames_push_enums (td : TypeDefinitions) (d : TypeDefinition) :
    (combinedNames { td with enums := td.enums ++ [d] }).Perm
      (combinedNames td ++ [d.name]) := by
  unfold combinedNames combinedDefs
  rw [List.perm_iff_count]
  intro a
  simp [List.count_append, List.count_cons]

theorem nodup_push_interface (td : TypeDefinitions) (n c : String) (ds : List String)
    (hnd : (combinedNames td).Nodup) (hn : n ∉ combinedNames td) :
    (combinedNames { td with interfaces := td.interfaces ++ [⟨n, c, ds⟩] }).Nodup :=
  ((combinedNames_push_interface td ⟨n, c, ds⟩).nodup_iff).mpr (nodup_append_singleton hnd hn)

theorem nodup_push_types (td : TypeDefinitions) (n c : String) (ds : List String)
    (hnd : (combinedNames td).Nodup) (hn : n ∉ combinedNames td) :
    (combinedNames { td with types := td.types ++ [⟨n, c, ds⟩] }).Nodup :=
  ((combinedNames_push_types td ⟨n, c, ds⟩).nodup_iff).mpr (nodup_append_singleton hnd hn)

theorem nodup_push_enums (td : TypeDefinitions) (n c : String) (ds : List String)
    (hnd : (combinedNames td).Nodup) (hn : n ∉ combinedNames td) :
    (combinedNames { td with enums := td.enums ++ [⟨n, c, ds⟩] }).Nodup :=
  ((combinedNames_push_enums td ⟨n, c, ds⟩).nodup_iff).mpr (nodup_append_singleton hnd hn)

theorem mem_combinedNames_push_interface (td : TypeDefinitions) (n c : String)
    (ds : List String) :
    n ∈ combinedNames { td with interfaces := td.interfaces ++ [⟨n, c, ds⟩] } := by
  rw [(combinedNames_push_interface td ⟨n, c, ds⟩).mem_iff]
  simp

theorem mem_combinedNames_push_types (td : TypeDefinitions) (n c : String)
    (ds : List String) :
    n ∈ combinedNames { td with types := td.types ++ [⟨n, c, ds⟩] } := by
  rw [(combinedNames_push_types td ⟨n, c, ds⟩).mem_iff]
  simp

theorem mem_combinedNames_push_enums (td : TypeDefinitions) (n c : String)
    (ds : List String) :
    n ∈ combinedNames { td with enums := td.enums ++ [⟨n, c, ds⟩] } := by
  rw [(combinedNames_push_enums td ⟨n, c, ds⟩).mem_iff]
  simp

theorem objectFold_nodup (resolve : ApiSchema → TypeDefinitions → String × TypeDefinitions)
    (required : List String) :
    ∀ props : List (String × ApiSchema),
      (∀ p ∈ props, ∀ td', (combinedNames td').Nodup →
        (combinedNames (resolve p.2 td').2).Nodup) →
      ∀ cont deps td, (combinedNames td).Nodup →
        (combinedNames ((props.foldl (objectPropStep resolve required)
          (cont, deps, td)).2.2)).Nodup := by
  intro props
  induction props with
  | nil =>
    intro _ cont deps td h
    simpa using h
  | cons p rest ih =>
    intro H cont deps td h
    rw [List.foldl_cons]
    have hstep : objectPropStep resolve required (cont, deps, td) p =
        ((objectPropStep resolve required (cont, deps, td) p).1,
          (objectPropStep resolve required (cont, deps, td) p).2.1,
          (resolve p.2 td).2) := rfl
    rw [hstep]
    exact ih (fun q hq => H q (List.mem_cons_of_mem p hq)) _ _ _
      (H p (List.mem_cons_self p rest) td h)

theorem resolveMembers_nodup (resolve : ApiSchema → TypeDefinitions → String × TypeDefinitions) :
    ∀ members : List ApiSchema,
      (∀ c ∈ members, ∀ td', (combinedNames td').Nodup →
        (combinedNames (resolve c td').2).Nodup) →
      ∀ td, (combinedNames td).Nodup →
        (combinedNames (resolveMembers resolve members td).2.2).Nodup := by
  intro members
  induction members with
  | nil =>
    intro _ td h
    simpa [resolveMembers] using h
  | cons c rest ih =>
    intro H td h
    have hshape : (resolveMembers resolve (c :: rest) td).2.2 =
        (resolveMembers resolve rest (resolve c td).2).2.2 := rfl
    rw [hshape]
    exact ih (fun q hq => H q (List.mem_cons_of_mem c hq)) _
      (H c (List.mem_cons_self c rest) td h)

/-- After resolving the members of a composition below a `GoodTree` node,
uniqueness still holds and the parent's name is still absent. -/
theorem members_nodup_and_avoid (fuel' : Nat) (s : ApiSchema) (anc : List String)
    (td : TypeDefinitions) (ms : List ApiSchema) (hms : ∀ c ∈ ms, c ∈ schemaChildren s)
    (hg : GoodTree anc s) (h : (combinedNames td).Nodup)
    (ih : ∀ (s' : ApiSchema) (anc' : List String) (td' : TypeDefinitions),
      GoodTree anc' s' → (combinedNames td').Nodup →
      (combinedNames (processSchema fuel' s' td').2).Nodup)
    (hsan_notin : sanitizeTypeName s.name ∉ combinedNames td) :
    (combinedNames (resolveMembers (fun c tdc => processSchema fuel' c tdc) ms td).2.2).Nodup ∧
      sanitizeTypeName s.name ∉
        combinedNames (resolveMembers (fun c tdc => processSchema fuel' c tdc) ms td).2.2 := by
  constructor
  · exact resolveMembers_nodup _ ms
      (fun c hc td' h' => ih c (s.name :: anc) td' (hg.children c (hms c hc)) h') td h
  · have happ := resolveMembers_appends (fun c tdc => processSchema fuel' c tdc)
      (fun c n => TreeName c n) ms (fun c hc td' => processSchema_appends fuel' c td') td
    obtain ⟨new, hperm, hnew⟩ := happ.combinedNames_perm
    rw [hperm.mem_iff, List.mem_append]
    rintro (hmem | hmem)
    · exact hsan_notin hmem
    · obtain ⟨c, hc, hcn⟩ := hnew _ hmem
      refine TreeName.not_mem_anc hcn (s.name :: anc) (hg.children c (hms c hc)) ?_
      rw [hg.fix]
      exact List.mem_cons_self _ _

/-- Within one run, resolving a `GoodTree` schema preserves the invariant
that no two declarations in the combined structural+alias+enumerated space
share a name. -/
theorem processSchema_nodup : ∀ (fuel : Nat) (s : ApiSchema) (anc : List String)
    (td : TypeDefinitions), GoodTree anc s → (combinedNames td).Nodup →
    (combinedNames (processSchema fuel s td).2).Nodup := by
  intro fuel
  induction fuel with
  | zero =>
    intro s anc td _ h
    cases href : s.reference with
    | some r =>
      rw [processSchema_reference 0 s td href]
      exact h
    | none =>
      cases hfind : findExistingType s.name td with
      | some t =>
        rw [processSchema_existing 0 s td href hfind]
        exact h
      | none =>
        rw [processSchema_zero_scalar s td href hfind]
        exact h
  | succ fuel' ih =>
    intro s anc td hg h
    cases href : s.reference with
    | some r =>
      rw [processSchema_reference _ s td href]
      exact h
    | none =>
      cases hfind : findExistingType s.name td with
      | some t =>
        rw [processSchema_existing _ s td href hfind]
        exact h
      | none =>
        have hsan_notin : sanitizeTypeName s.name ∉ combinedNames td := by
          rw [hg.fix]
          exact name_not_mem_of_findExistingType_none hfind
        have ih' : ∀ (s' : ApiSchema) (anc' : List String) (td' : TypeDefinitions),
            GoodTree anc' s' → (combinedNames td').Nodup →
            (combinedNames (processSchema fuel' s' td').2).Nodup :=
          fun s' anc' td' hg' h' => ih s' anc' td' hg' h'
        rw [processSchema_succ_dispatch fuel' s td href hfind]
        split_ifs with h1 h2 h3 h4 h5 h6
        · obtain ⟨content, heq⟩ := processEnumSchema_snd s td
          rw [heq]
          exact nodup_push_enums td (sanitizeTypeName s.name) content [] h hsan_notin
        · obtain ⟨content, deps, heq⟩ :=
            processObjectSchema_snd (fun c tdc => processSchema fuel' c tdc) s td
          rw [heq]
          have hnd_f := objectFold_nodup (fun c tdc => processSchema fuel' c tdc)
            s.required s.properties
            (fun p hp td' h' =>
              ih' p.2 (s.name :: anc) td' (hg.children p.2 (prop_snd_mem_children hp)) h')
            ("export interface " ++ sanitizeTypeName s.name ++ " \x7b\n") [] td h
          have happ := objectFold_appends (fun c tdc => processSchema fuel' c tdc)
            s.required (fun c n => TreeName c n) s.properties
            (fun p _ td' => processSchema_appends fuel' p.2 td')
            ("export interface " ++ sanitizeTypeName s.name ++ " \x7b\n") [] td
          obtain ⟨new, hperm, hnew⟩ := happ.combinedNames_perm
          have hnotin_f : sanitizeTypeName s.name ∉ combinedNames
              ((s.properties.foldl
                (objectPropStep (fun c tdc => processSchema fuel' c tdc) s.required)
                ("export interface " ++ sanitizeTypeName s.name ++ " \x7b\n", [], td)).2.2) := by
            rw [hperm.mem_iff, List.mem_append]
            rintro (hmem | hmem)
            · exact hsan_notin hmem
            · obtain ⟨p, hp, hpn⟩ := hnew _ hmem
              refine TreeName.not_mem_anc hpn (s.name :: anc)
                (hg.children p.2 (prop_snd_mem_children hp)) ?_
              rw [hg.fix]
              exact List.mem_cons_self _ _
          exact nodup_push_interface _ (sanitizeTypeName s.name) content deps hnd_f hnotin_f
        · obtain ⟨i, hit⟩ := Option.isSome_iff_exists.mp h3.2
          obtain ⟨content, deps, heq⟩ :=
            processArraySchema_snd (fun c tdc => processSchema fuel' c tdc) s td hit
          rw [heq]
          have hchild := hg.children i (items_mem_children hit)
          have hnd_i := ih' i (s.name :: anc) td hchild h
          have happ := processSchema_appends fuel' i td
          obtain ⟨new, hperm, hnew⟩ := happ.combinedNames_perm
          have hnotin_i : sanitizeTypeName s.name ∉
              combinedNames (processSchema fuel' i td).2 := by
            rw [hperm.mem_iff, List.mem_append]
            rintro (hmem | hmem)
            · exact hsan_notin hmem
            · refine TreeName.not_mem_anc (hnew _ hmem) (s.name :: anc) hchild ?_
              rw [hg.fix]
              exact List.mem_cons_self _ _
          exact nodup_push_types _ (sanitizeTypeName s.name) content deps hnd_i hnotin_i
        · cases hall : s.allOf with
          | none => simp [hall] at h4
          | some ms =>
            obtain ⟨content, deps, heq⟩ :=
              processAllOfSchema_snd (fun c tdc => processSchema fuel' c tdc) s td hall
            rw [heq]
            obtain ⟨hnd_m, hnotin_m⟩ := members_nodup_and_avoid fuel' s anc td ms
              (fun c hc => allOf_mem_children hall hc) hg h ih' hsan_notin
            exact nodup_push_types _ (sanitizeTypeName s.name) content deps hnd_m hnotin_m
        · cases hone : s.oneOf with
          | none => simp [hone] at h5
          | some ms =>
            obtain ⟨content, deps, heq⟩ :=
              processOneOfSchema_snd (fun c tdc => processSchema fuel' c tdc) s td hone
            rw [heq]
            obtain ⟨hnd_m, hnotin_m⟩ := members_nodup_and_avoid fuel' s anc td ms
              (fun c hc => oneOf_mem_children hone hc) hg h ih' hsan_notin
            exact nodup_push_types _ (sanitizeTypeName s.name) content deps hnd_m hnotin_m
        · cases hany : s.anyOf with
          | none => simp [hany] at h6
          | some ms =>
            obtain ⟨content, deps, heq⟩ :=
              processAnyOfSchema_snd (fun c tdc => processSchema fuel' c tdc) s td hany
            rw [heq]
            obtain ⟨hnd_m, hnotin_m⟩ := members_nodup_and_avoid fuel' s anc td ms
              (fun c hc => anyOf_mem_children hany hc) hg h ih' hsan_notin
            exact nodup_push_types _ (sanitizeTypeName s.name) content deps hnd_m hnotin_m
        · exact h

/-! ## What one emitting resolution returns and records -/

/-- The dispatch conditions under which `processSchema` reaches one of the
six declaration-emitting branches (mirrors the `if` chain of
src/generator.ts lines 99-113 for a node that passed the reference and
memoization checks). -/
def EmittingShape (s : ApiSchema) (td : TypeDefinitions) : Prop :=
  s.reference = none ∧ findExistingType s.name td = none ∧
    ((s.enum.getD []).length > 0 ∨ (s.type = "object" ∨ s.properties.length > 0) ∨
      (s.type = "array" ∧ s.items.isSome) ∨ (s.allOf.getD []).length > 0 ∨
      (s.oneOf.getD []).length > 0 ∨ (s.anyOf.getD []).length > 0)

theorem processSchema_emits (fuel' : Nat) (s : ApiSchema) (td : TypeDefinitions)
    (h : EmittingShape s td) :
    (processSchema (fuel' + 1) s td).1 = sanitizeTypeName s.name ∧
      sanitizeTypeName s.name ∈ combinedNames (processSchema (fuel' + 1) s td).2 := by
  obtain ⟨href, hfind, hdisp⟩ := h
  rw [processSchema_succ_dispatch fuel' s td href hfind]
  split_ifs with h1 h2 h3 h4 h5 h6
  · obtain ⟨content, heq⟩ := processEnumSchema_snd s td
    refine ⟨processEnumSchema_fst s td, ?_⟩
    rw [heq]
    exact mem_combinedNames_push_enums td (sanitizeTypeName s.name) content []
  · obtain ⟨content, deps, heq⟩ :=
      processObjectSchema_snd (fun c tdc => processSchema fuel' c tdc) s td
    refine ⟨processObjectSchema_fst _ s td, ?_⟩
    rw [heq]
    exact mem_combinedNames_push_interface _ (sanitizeTypeName s.name) content deps
  · obtain ⟨i, hit⟩ := Option.isSome_iff_exists.mp h3.2
    obtain ⟨content, deps, heq⟩ :=
      processArraySchema_snd (fun c tdc => processSchema fuel' c tdc) s td hit
    refine ⟨processArraySchema_fst _ s td hit, ?_⟩
    rw [heq]
    exact mem_combinedNames_push_types _ (sanitizeTypeName s.name) content deps
  · cases hall : s.allOf with
    | none => rw [hall] at h4; simp at h4
    | some ms =>
      obtain ⟨content, deps, heq⟩ :=
        processAllOfSchema_snd (fun c tdc => processSchema fuel' c tdc) s td hall
      refine ⟨processAllOfSchema_fst _ s td hall, ?_⟩
      rw [heq]
      exact mem_combinedNames_push_types _ (sanitizeTypeName s.name) content deps
  · cases hone : s.oneOf with
    | none => rw [hone] at h5; simp at h5
    | some ms =>
      obtain ⟨content, deps, heq⟩ :=
        processOneOfSchema_snd (fun c tdc => processSchema fuel' c tdc) s td hone
      refine ⟨processOneOfSchema_fst _ s td hone, ?_⟩
      rw [heq]
      exact mem_combinedNames_push_types _ (sanitizeTypeName s.name) content deps
  · cases hany : s.anyOf with
    | none => rw [hany] at h6; simp at h6
    | some ms =>
      obtain ⟨content, deps, heq⟩ :=
        processAnyOfSchema_snd (fun c tdc => processSchema fuel' c tdc) s td hany
      refine ⟨processAnyOfSchema_fst _ s td hany, ?_⟩
      rw [heq]
      exact mem_combinedNames_push_types _ (sanitizeTypeName s.name) content deps
  · rcases hdisp with hc | hc | hc | hc | hc | hc
    · exact absurd hc h1
    · exact absurd hc h2
    · exact absurd hc h3
    · exact absurd hc h4
    · exact absurd hc h5
    · exact absurd hc h6

/-- Once a declaration with the schema's (raw) name is in the accumulator,
any later resolution of a non-reference schema with that name returns it
via memoization, emitting nothing. -/
theorem processSchema_after_emit (fuel2 : Nat) (s2 : ApiSchema) (td1 : TypeDefinitions)
    (href : s2.reference = none) (hmem : s2.name ∈ combinedNames td1) :
    processSchema fuel2 s2 td1 = (s2.name, td1) := by
  have hfind : findExistingType s2.name td1 = some s2.name := by
    apply findExistingType_of_mem
    obtain ⟨d, hd, hdn⟩ := List.mem_map.mp hmem
    exact ⟨d, hd, hdn⟩
  exact processSchema_existing fuel2 s2 td1 href hfind

theorem count_base_eq {P : String → Prop} {td base : TypeDefinitions}
    (happ : AppendsOnly P td base) (n : String) (havoid : ∀ m, P m → m ≠ n) :
    (combinedNames base).count n = (combinedNames td).count n := by
  obtain ⟨new, hperm, hnew⟩ := happ.combinedNames_perm
  rw [hperm.count_eq, List.count_append]
  have hzero : new.count n = 0 :=
    List.count_eq_zero.mpr (fun hmem => (havoid n (hnew _ hmem)) rfl)
  omega

theorem count_push_interface (base : TypeDefinitions) (n c : String) (ds : List String) :
    (combinedNames { base with interfaces := base.interfaces ++ [⟨n, c, ds⟩] }).count n =
      (combinedNames base).count n + 1 := by
  rw [(combinedNames_push_interface base ⟨n, c, ds⟩).count_eq, List.count_append]
  simp

theorem count_push_types (base : TypeDefinitions) (n c : String) (ds : List String) :
    (combinedNames { base with types := base.types ++ [⟨n, c, ds⟩] }).count n =
      (combinedNames base).count n + 1 := by
  rw [(combinedNames_push_types base ⟨n, c, ds⟩).count_eq, List.count_append]
  simp

theorem count_push_enums (base : TypeDefinitions) (n c : String) (ds : List String) :
    (combinedNames { base with enums := base.enums ++ [⟨n, c, ds⟩] }).count n =
      (combinedNames base).count n + 1 := by
  rw [(combinedNames_push_enums base ⟨n, c, ds⟩).count_eq, List.count_append]
  simp

theorem emit_count_enum (s : ApiSchema) (td : TypeDefinitions)
    (content : String) :
    (combinedNames { td with enums := td.enums ++
        [⟨sanitizeTypeName s.name, content, []⟩] }).count (sanitizeTypeName s.name) =
      (combinedNames td).count (sanitizeTypeName s.name) + 1 :=
  count_push_enums td (sanitizeTypeName s.name) content []

theorem emit_count_object (fuel' : Nat) (s : ApiSchema) (td : TypeDefinitions)
    (havoid : ∀ c ∈ schemaChildren s, ∀ m, TreeName c m → m ≠ sanitizeTypeName s.name)
    (content : String) (deps : List String) :
    (combinedNames { (s.properties.foldl
        (objectPropStep (fun c tdc => processSchema fuel' c tdc) s.required)
        ("export interface " ++ sanitizeTypeName s.name ++ " \x7b\n", [], td)).2.2 with
      interfaces := (s.properties.foldl
        (objectPropStep (fun c tdc => processSchema fuel' c tdc) s.required)
        ("export interface " ++ sanitizeTypeName s.name ++ " \x7b\n", [], td)).2.2.interfaces ++
        [⟨sanitizeTypeName s.name, content, deps⟩] }).count (sanitizeTypeName s.name) =
      (combinedNames td).count (sanitizeTypeName s.name) + 1 := by
  have happ := objectFold_appends (fun c tdc => processSchema fuel' c tdc)
    s.required (fun c n => TreeName c n) s.properties
    (fun p _ td' => processSchema_appends fuel' p.2 td')
    ("export interface " ++ sanitizeTypeName s.name ++ " \x7b\n") [] td
  have hbase := count_base_eq happ (sanitizeTypeName s.name) (by
    rintro m ⟨p, hp, hpm⟩
    exact havoid p.2 (prop_snd_mem_children hp) m hpm)
  rw [count_push_interface _ (sanitizeTypeName s.name) content deps, hbase]

theorem emit_count_array (fuel' : Nat) (s : ApiSchema) (td : TypeDefinitions)
    (havoid : ∀ c ∈ schemaChildren s, ∀ m, TreeName c m → m ≠ sanitizeTypeName s.name)
    {i : ApiSchema} (hit : s.items = some i) (content : String) (deps : List String) :
    (combinedNames { (processSchema fuel' i td).2 with
        types := (processSchema fuel' i td).2.types ++
          [⟨sanitizeTypeName s.name, content, deps⟩] }).count (sanitizeTypeName s.name) =
      (combinedNames td).count (sanitizeTypeName s.name) + 1 := by
  have hbase := count_base_eq (processSchema_appends fuel' i td) (sanitizeTypeName s.name)
    (fun m hm => havoid i (items_mem_children hit) m hm)
  rw [count_push_types _ (sanitizeTypeName s.name) content deps, hbase]

theorem emit_count_members (fuel' : Nat) (s : ApiSchema) (td : TypeDefinitions)
    (ms : List ApiSchema) (hms : ∀ c ∈ ms, c ∈ schemaChildren s)
    (havoid : ∀ c ∈ schemaChildren s, ∀ m, TreeName c m → m ≠ sanitizeTypeName s.name)
    (content : String) (deps : List String) :
    (combinedNames { (resolveMembers (fun c tdc => processSchema fuel' c tdc) ms td).2.2 with
        types := (resolveMembers (fun c tdc => processSchema fuel' c tdc) ms td).2.2.types ++
          [⟨sanitizeTypeName s.name, content, deps⟩] }).count (sanitizeTypeName s.name) =
      (combinedNames td).count (sanitizeTypeName s.name) + 1 := by
  have happ := resolveMembers_appends (fun c tdc => processSchema fuel' c tdc)
    (fun c n => TreeName c n) ms (fun c _ td' => processSchema_appends fuel' c td') td
  have hbase := count_base_eq happ (sanitizeTypeName s.name) (by
    rintro m ⟨c, hc, hcm⟩
    exact havoid c (hms c hc) m hcm)
  rw [count_push_types _ (sanitizeTypeName s.name) content deps, hbase]

set_option maxHeartbeats 1000000 in
/-- An emitting resolution of a `GoodTree` schema adds exactly one
declaration carrying the schema's sanitized name. -/
theorem processSchema_emit_count (fuel' : Nat) (s : ApiSchema) (td : TypeDefinitions)
    (hg : GoodTree [] s) (h : EmittingShape s td) :
    (combinedNames (processSchema (fuel' + 1) s td).2).count (sanitizeTypeName s.name) =
      (combinedNames td).count (sanitizeTypeName s.name) + 1 := by
  obtain ⟨href, hfind, hdisp⟩ := h
  have havoid : ∀ c ∈ schemaChildren s, ∀ m, TreeName c m → m ≠ sanitizeTypeName s.name := by
    intro c hc m hm heqm
    refine TreeName.not_mem_anc hm [s.name] (hg.children c hc) ?_
    rw [heqm, hg.fix]
    exact List.mem_cons_self _ _
  rw [processSchema_succ_dispatch fuel' s td href hfind]
  split_ifs with h1 h2 h3 h4 h5 h6
  · obtain ⟨content, heq⟩ := processEnumSchema_snd s td
    rw [heq]
    exact emit_count_enum s td content
  · obtain ⟨content, deps, heq⟩ :=
      processObjectSchema_snd (fun c tdc => processSchema fuel' c tdc) s td
    rw [heq]
    exact emit_count_object fuel' s td havoid content deps
  · obtain ⟨i, hit⟩ := Option.isSome_iff_exists.mp h3.2
    obtain ⟨content, deps, heq⟩ :=
      processArraySchema_snd (fun c tdc => processSchema fuel' c tdc) s td hit
    rw [heq]
    exact emit_count_array fuel' s td havoid hit content deps
  · cases hall : s.allOf with
    | none => rw [hall] at h4; simp at h4
    | some ms =>
      obtain ⟨content, deps, heq⟩ :=
        processAllOfSchema_snd (fun c tdc => processSchema fuel' c tdc) s td hall
      rw [heq]
      exact emit_count_members fuel' s td ms
        (fun c hc => allOf_mem_children hall hc) havoid content deps
  · cases hone : s.oneOf with
    | none => rw [hone] at h5; simp at h5
    | some ms =>
      obtain ⟨content, deps, heq⟩ :=
        processOneOfSchema_snd (fun c tdc => processSchema fuel' c tdc) s td hone
      rw [heq]
      exact emit_count_members fuel' s td ms
        (fun c hc => oneOf_mem_children hone hc) havoid content deps
  · cases hany : s.anyOf with
    | none => rw [hany] at h6; simp at h6
    | some ms =>
      obtain ⟨content, deps, heq⟩ :=
        processAnyOfSchema_snd (fun c tdc => processSchema fuel' c tdc) s td hany
      rw [heq]
      exact emit_count_members fuel' s td ms
        (fun c hc => anyOf_mem_children hany hc) havoid content deps
  · rcases hdisp with hc | hc | hc | hc | hc | hc
    · exact absurd hc h1
    · exact absurd hc h2
    · exact absurd hc h3
    · exact absurd hc h4
    · exact absurd hc h5
    · exact absurd hc h6

/-! ## The two folds of `generateTypeDefinitions` -/

theorem AppendsOnly.mem_combinedDefs {P : String → Prop} {td td' : TypeDefinitions}
    (h : AppendsOnly P td td') :
    ∀ d ∈ combinedDefs td', d ∈ combinedDefs td ∨ P d.name := by
  obtain ⟨ni, nt, ne, hi, ht, he, _, hp⟩ := h
  intro d hd
  unfold combinedDefs at hd ⊢
  rw [hi, ht, he] at hd
  rcases List.mem_append.mp hd with h12 | h3
  · rcases List.mem_append.mp h12 with h1 | h2
    · rcases List.mem_append.mp h1 with h' | h'
      · exact Or.inl (List.mem_append.mpr (Or.inl (List.mem_append.mpr (Or.inl h'))))
      · exact Or.inr (hp d (Or.inl h'))
    · rcases List.mem_append.mp h2 with h' | h'
      · exact Or.inl (List.mem_append.mpr (Or.inl (List.mem_append.mpr (Or.inr h'))))
      · exact Or.inr (hp d (Or.inr (Or.inl h')))
  · rcases List.mem_append.mp h3 with h' | h'
    · exact Or.inl (List.mem_append.mpr (Or.inr h'))
    · exact Or.inr (hp d (Or.inr (Or.inr h')))

/-- The schema loop of `generateTypeDefinitions`
(src/generator.ts lines 23-25). -/
def processAllSchemas (fuel : Nat) (schemas : List (String × ApiSchema))
    (td : TypeDefinitions) : TypeDefinitions :=
  schemas.foldl (fun td entry => (processSchema fuel entry.2 td).2) td

theorem processAllSchemas_nodup (fuel : Nat) :
    ∀ schemas : List (String × ApiSchema), (∀ p ∈ schemas, GoodTree [] p.2) →
      ∀ td, (combinedNames td).Nodup →
        (combinedNames (processAllSchemas fuel schemas td)).Nodup := by
  intro schemas
  induction schemas with
  | nil =>
    intro _ td h
    exact h
  | cons p rest ih =>
    intro hg td h
    exact ih (fun q hq => hg q (List.mem_cons_of_mem p hq)) _
      (processSchema_nodup fuel p.2 [] td (hg p (List.mem_cons_self p rest)) h)

theorem processAllSchemas_provenance (fuel : Nat) :
    ∀ schemas : List (String × ApiSchema), ∀ td,
      ∀ d ∈ combinedDefs (processAllSchemas fuel schemas td),
        d ∈ combinedDefs td ∨ ∃ p ∈ schemas, TreeName p.2 d.name := by
  intro schemas
  induction schemas with
  | nil =>
    intro td d hd
    exact Or.inl hd
  | cons p rest ih =>
    intro td d hd
    rcases ih _ d hd with hd' | ⟨q, hq, hqn⟩
    · rcases (processSchema_appends fuel p.2 td).mem_combinedDefs d hd' with hd'' | hn
      · exact Or.inl hd''
      · exact Or.inr ⟨p, List.mem_cons_self p rest, hn⟩
    · exact Or.inr ⟨q, List.mem_cons_of_mem p hq, hqn⟩

theorem processAllSchemas_apiClasses (fuel : Nat) :
    ∀ schemas : List (String × ApiSchema), ∀ td,
      (processAllSchemas fuel schemas td).apiClasses = td.apiClasses := by
  intro schemas
  induction schemas with
  | nil =>
    intro td
    rfl
  | cons p rest ih =>
    intro td
    simp only [processAllSchemas] at ih ⊢
    rw [List.foldl_cons, ih]
    obtain ⟨ni, nt, ne, _, _, _, ha, _⟩ := processSchema_appends fuel p.2 td
    exact ha

/-- The client-class loop of `generateTypeDefinitions`
(src/generator.ts lines 30-42). -/
def pushApiClasses (groups : List (String × List ApiEndpoint)) (td : TypeDefinitions) :
    TypeDefinitions :=
  groups.foldl
    (fun td group => { td with apiClasses := td.apiClasses ++ [apiClassOfGroup group] }) td

theorem pushApiClasses_interfaces (groups : List (String × List ApiEndpoint)) :
    ∀ td, (pushApiClasses groups td).interfaces = td.interfaces := by
  induction groups with
  | nil => intro td; rfl
  | cons g rest ih => intro td; exact ih _

theorem pushApiClasses_types (groups : List (String × List ApiEndpoint)) :
    ∀ td, (pushApiClasses groups td).types = td.types := by
  induction groups with
  | nil => intro td; rfl
  | cons g rest ih => intro td; exact ih _

theorem pushApiClasses_enums (groups : List (String × List ApiEndpoint)) :
    ∀ td, (pushApiClasses groups td).enums = td.enums := by
  induction groups with
  | nil => intro td; rfl
  | cons g rest ih => intro td; exact ih _

theorem pushApiClasses_apiClasses (groups : List (String × List ApiEndpoint)) :
    ∀ td, (pushApiClasses groups td).apiClasses =
      td.apiClasses ++ groups.map apiClassOfGroup := by
  induction groups with
  | nil => intro td; simp [pushApiClasses]
  | cons g rest ih =>
    intro td
    simp only [pushApiClasses] at ih ⊢
    rw [List.foldl_cons, ih]
    simp

theorem generateTypeDefinitions_eq (fuel : Nat) (parsedSpec : ParsedSpec) :
    generateTypeDefinitions fuel parsedSpec =
      pushApiClasses (groupEndpointsByTag parsedSpec)
        (processAllSchemas fuel parsedSpec.components.schemas emptyTypeDefinitions) := rfl

theorem generateTypeDefinitions_apiClasses (fuel : Nat) (parsedSpec : ParsedSpec) :
    (generateTypeDefinitions fuel parsedSpec).apiClasses =
      (groupEndpointsByTag parsedSpec).map apiClassOfGroup := by
  rw [generateTypeDefinitions_eq, pushApiClasses_apiClasses,
    processAllSchemas_apiClasses]
  rfl

/-! ## Membership in the tag groups -/

theorem mem_pushToGroup (gs : List (String × List ApiEndpoint)) (t' : String)
    (e' : ApiEndpoint) (t : String) (e : ApiEndpoint) :
    (∃ g ∈ pushToGroup gs t' e', g.1 = t ∧ e ∈ g.2) ↔
      (∃ g ∈ gs, g.1 = t ∧ e ∈ g.2) ∨ (t = t' ∧ e = e') := by
  unfold pushToGroup
  by_cases hany : gs.any (fun g => g.1 == t') = true
  · rw [if_pos hany]
    constructor
    · rintro ⟨g, hg, hgt, hge⟩
      obtain ⟨g0, hg0, hg0eq⟩ := List.mem_map.mp hg
      by_cases hbt : g0.1 == t'
      · rw [if_pos hbt] at hg0eq
        subst hg0eq
        rcases List.mem_append.mp hge with hge' | hge'
        · exact Or.inl ⟨g0, hg0, hgt, hge'⟩
        · refine Or.inr ⟨?_, List.mem_singleton.mp hge'⟩
          rw [← hgt]
          exact beq_iff_eq.mp hbt
      · rw [if_neg hbt] at hg0eq
        subst hg0eq
        exact Or.inl ⟨g0, hg0, hgt, hge⟩
    · rintro (⟨g, hg, hgt, hge⟩ | ⟨ht, he⟩)
      · by_cases hbt : g.1 == t'
        · refine ⟨(g.1, g.2 ++ [e']), ?_, hgt, List.mem_append.mpr (Or.inl hge)⟩
          have : (if g.1 == t' then (g.1, g.2 ++ [e']) else g) = (g.1, g.2 ++ [e']) :=
            if_pos hbt
          exact this ▸ List.mem_map_of_mem _ hg
        · refine ⟨g, ?_, hgt, hge⟩
          have : (if g.1 == t' then (g.1, g.2 ++ [e']) else g) = g := if_neg hbt
          exact this ▸ List.mem_map_of_mem _ hg
      · obtain ⟨g0, hg0, hbt⟩ := List.any_eq_true.mp hany
        refine ⟨(g0.1, g0.2 ++ [e']), ?_, ?_, ?_⟩
        · have : (if g0.1 == t' then (g0.1, g0.2 ++ [e']) else g0) = (g0.1, g0.2 ++ [e']) :=
            if_pos hbt
          exact this ▸ List.mem_map_of_mem _ hg0
        · rw [ht]
          exact beq_iff_eq.mp hbt
        · rw [he]
          exact List.mem_append.mpr (Or.inr (List.mem_singleton.mpr rfl))
  · rw [if_neg hany]
    constructor
    · rintro ⟨g, hg, hgt, hge⟩
      rcases List.mem_append.mp hg with hg' | hg'
      · exact Or.inl ⟨g, hg', hgt, hge⟩
      · rw [List.mem_singleton.mp hg'] at hgt hge
        exact Or.inr ⟨hgt.symm, List.mem_singleton.mp hge⟩
    · rintro (⟨g, hg, hgt, hge⟩ | ⟨ht, he⟩)
      · exact ⟨g, List.mem_append.mpr (Or.inl hg), hgt, hge⟩
      · refine ⟨(t', [e']), List.mem_append.mpr (Or.inr (List.mem_singleton.mpr rfl)),
          ht.symm, ?_⟩
        rw [he]
        exact List.mem_singleton.mpr rfl

theorem mem_tagsFold (e' : ApiEndpoint) :
    ∀ (tags : List String) (gs : List (String × List ApiEndpoint)) (t : String)
      (e : ApiEndpoint),
      (∃ g ∈ tags.foldl (fun gs tag => pushToGroup gs tag e') gs, g.1 = t ∧ e ∈ g.2) ↔
        (∃ g ∈ gs, g.1 = t ∧ e ∈ g.2) ∨ (t ∈ tags ∧ e = e') := by
  intro tags
  induction tags with
  | nil =>
    intro gs t e
    simp
  | cons tg rest ih =>
    intro gs t e
    rw [List.foldl_cons, ih, mem_pushToGroup]
    constructor
    · rintro ((h | ⟨ht, he⟩) | ⟨ht, he⟩)
      · exact Or.inl h
      · exact Or.inr ⟨ht ▸ List.mem_cons_self tg rest, he⟩
      · exact Or.inr ⟨List.mem_cons_of_mem tg ht, he⟩
    · rintro (h | ⟨ht, he⟩)
      · exact Or.inl (Or.inl h)
      · rcases List.mem_cons.mp ht with h' | h'
        · exact Or.inl (Or.inr ⟨h', he⟩)
        · exact Or.inr ⟨h', he⟩

theorem mem_groupFold :
    ∀ (es : List ApiEndpoint) (gs : List (String × List ApiEndpoint)) (t : String)
      (e : ApiEndpoint),
      (∃ g ∈ es.foldl (fun groups endpoint =>
          (effectiveTags endpoint).foldl (fun gs tag => pushToGroup gs tag endpoint) groups)
          gs, g.1 = t ∧ e ∈ g.2) ↔
        (∃ g ∈ gs, g.1 = t ∧ e ∈ g.2) ∨ ∃ e0 ∈ es, e = e0 ∧ t ∈ effectiveTags e0 := by
  intro es
  induction es with
  | nil =>
    intro gs t e
    simp
  | cons e0 rest ih =>
    intro gs t e
    rw [List.foldl_cons, ih, mem_tagsFold]
    constructor
    · rintro ((h | ⟨ht, he⟩) | ⟨e1, he1, heq, ht⟩)
      · exact Or.inl h
      · exact Or.inr ⟨e0, List.mem_cons_self e0 rest, he, ht⟩
      · exact Or.inr ⟨e1, List.mem_cons_of_mem e0 he1, heq, ht⟩
    · rintro (h | ⟨e1, he1, heq, ht⟩)
      · exact Or.inl (Or.inl h)
      · rcases List.mem_cons.mp he1 with h' | h'
        · subst h'
          exact Or.inl (Or.inr ⟨ht, heq⟩)
        · exact Or.inr ⟨e1, h', heq, ht⟩

/-- An endpoint appears in the group for tag `t` exactly when `t` is one of
its effective tags. -/
theorem mem_groupEndpointsByTag (spec : ParsedSpec) (t : String) (e : ApiEndpoint)
    (he : e ∈ allEndpoints spec) :
    (∃ g ∈ groupEndpointsByTag spec, g.1 = t ∧ e ∈ g.2) ↔ t ∈ effectiveTags e := by
  unfold groupEndpointsByTag
  rw [mem_groupFold]
  constructor
  · rintro (⟨g, hg, _⟩ | ⟨e0, _, heq, ht⟩)
    · simp at hg
    · exact heq ▸ ht
  · intro ht
    exact Or.inr ⟨e, he, rfl, ht⟩

/-! ## The claims -/

/-- C1: `processSchema` dispatches by first match in the fixed source
order; in particular, a node whose `reference` field is set resolves to
that reference name verbatim with the accumulator unchanged (no
declaration appended), and — next in priority — a node whose name already
names an existing declaration resolves to that name with the accumulator
unchanged. -/
theorem claim_C1_dispatch_reference :
    (∀ (fuel : Nat) (s : ApiSchema) (td : TypeDefinitions) (r : String),
      s.reference = some r → processSchema fuel s td = (r, td)) ∧
    (∀ (fuel : Nat) (s : ApiSchema) (td : TypeDefinitions) (t : String),
      s.reference = none → findExistingType s.name td = some t →
      processSchema fuel s td = (t, td)) ∧
    (∀ (fuel' : Nat) (s : ApiSchema) (td : TypeDefinitions),
      s.reference = none → findExistingType s.name td = none →
      processSchema (fuel' + 1) s td =
        if (s.enum.getD []).length > 0 then processEnumSchema s td
        else if s.type = "object" ∨ s.properties.length > 0 then
          processObjectSchema (fun c tdc => processSchema fuel' c tdc) s td
        else if s.type = "array" ∧ s.items.isSome then
          processArraySchema (fun c tdc => processSchema fuel' c tdc) s td
        else if (s.allOf.getD []).length > 0 then
          processAllOfSchema (fun c tdc => processSchema fuel' c tdc) s td
        else if (s.oneOf.getD []).length > 0 then
          processOneOfSchema (fun c tdc => processSchema fuel' c tdc) s td
        else if (s.anyOf.getD []).length > 0 then
          processAnyOfSchema (fun c tdc => processSchema fuel' c tdc) s td
        else (toTsType (some s.type) s.format, td)) :=
  ⟨fun fuel s td _ h => processSchema_reference fuel s td h,
    fun fuel s td _ h1 h2 => processSchema_existing fuel s td h1 h2,
    fun fuel' s td h1 h2 => processSchema_succ_dispatch fuel' s td h1 h2⟩

/-- C1 witness: a node with `reference = "Pet"` (and an enum body that
would otherwise dispatch differently) resolves to "Pet" verbatim, leaving
the empty accumulator untouched. -/
theorem claim_C1_witness :
    processSchema 5
      (.mk "X" "object" none (some [.str "A"]) false [] [] none none none none (some "Pet"))
      emptyTypeDefinitions = ("Pet", emptyTypeDefinitions) :=
  claim_C1_dispatch_reference.1 5
    (.mk "X" "object" none (some [.str "A"]) false [] [] none none none none (some "Pet"))
    emptyTypeDefinitions "Pet" rfl

/-- C7: the scalar fallback mapping table of `toTsType`.  In the source's
switch, `object` and the default case (any type string outside the
recognized set — "unspecified" in the table) both map to the untyped
key-value mapping `Record<string, any>`. -/
theorem claim_C7_scalar_table :
    (∀ f, f ≠ some "int64" → toTsType (some "integer") f = "number") ∧
    (∀ f, f ≠ some "int64" → toTsType (some "number") f = "number") ∧
    toTsType (some "integer") (some "int64") = "bigint" ∧
    toTsType (some "number") (some "int64") = "bigint" ∧
    (∀ f, f ≠ some "date" → f ≠ some "date-time" → f ≠ some "binary" →
      toTsType (some "string") f = "string") ∧
    toTsType (some "string") (some "date") = "Date" ∧
    toTsType (some "string") (some "date-time") = "Date" ∧
    toTsType (some "string") (some "binary") = "Blob" ∧
    (∀ f, toTsType (some "boolean") f = "boolean") ∧
    (∀ f, toTsType (some "array") f = "any[]") ∧
    (∀ f, toTsType (some "object") f = "Record<string, any>") ∧
    (∀ t f, t ≠ "" → toLowerStr t ≠ "integer" → toLowerStr t ≠ "number" →
      toLowerStr t ≠ "string" → toLowerStr t ≠ "boolean" → toLowerStr t ≠ "array" →
      toTsType (some t) f = "Record<string, any>") := by
  refine ⟨?_, ?_, by decide, by decide, ?_, by decide, by decide, by decide, ?_, ?_, ?_, ?_⟩
  · intro f hf
    simp only [toTsType]
    rw [if_neg (by decide), if_pos (by decide), if_neg hf]
  · intro f hf
    simp only [toTsType]
    rw [if_neg (by decide), if_neg (by decide), if_pos (by decide), if_neg hf]
  · intro f h1 h2 h3
    simp only [toTsType]
    rw [if_neg (by decide), if_neg (by decide), if_neg (by decide), if_pos (by decide),
      if_neg h1, if_neg h2, if_neg h3]
  · intro f
    simp only [toTsType]
    rw [if_neg (by decide), if_neg (by decide), if_neg (by decide), if_neg (by decide),
      if_pos (by decide)]
  · intro f
    simp only [toTsType]
    rw [if_neg (by decide), if_neg (by decide), if_neg (by decide), if_neg (by decide),
      if_neg (by decide), if_pos (by decide)]
  · intro f
    simp only [toTsType]
    rw [if_neg (by decide), if_neg (by decide), if_neg (by decide), if_neg (by decide),
      if_neg (by decide), if_neg (by decide)]
  · intro t f h0 h1 h2 h3 h4 h5
    simp only [toTsType]
    rw [if_neg h0, if_neg h1, if_neg h2, if_neg h3, if_neg h4, if_neg h5]

/-- C7 witness: the table at concrete inputs, including the parser-produced
type string "enum" exercising the default case. -/
theorem claim_C7_witness :
    toTsType (some "integer") none = "number" ∧
    toTsType (some "string") (some "int32") = "string" ∧
    toTsType (some "enum") none = "Record<string, any>" :=
  ⟨claim_C7_scalar_table.1 none (by decide),
    claim_C7_scalar_table.2.2.2.2.1 (some "int32") (by decide) (by decide) (by decide),
    claim_C7_scalar_table.2.2.2.2.2.2.2.2.2.2.2 "enum" none (by decide) (by decide)
      (by decide) (by decide) (by decide) (by decide)⟩

/-- C10: every client declaration produced by `generateTypeDefinitions`
carries an empty dependency list, for every input spec and tag, regardless
of what its methods reference (the source pushes `dependencies: []`
verbatim). -/
theorem claim_C10_empty_dependencies (fuel : Nat) (spec : ParsedSpec)
    (d : TypeDefinition) (hd : d ∈ (generateTypeDefinitions fuel spec).apiClasses) :
    d.dependencies = [] := by
  rw [generateTypeDefinitions_apiClasses] at hd
  obtain ⟨g, _, hge⟩ := List.mem_map.mp hd
  rw [← hge]
  rfl

def c10endpoint : ApiEndpoint := ⟨"/y", "get", "getY", "", "", [], none, [], []⟩

def c10spec : ParsedSpec := ⟨⟨"API", "1.0.0", ""⟩, [], "", [("/y", ⟨[c10endpoint]⟩)], ⟨[]⟩⟩

/-- C10 witness: the client declaration generated for the untagged
endpoint of a one-endpoint spec has no dependencies. -/
theorem claim_C10_witness :
    (apiClassOfGroup ("default", [c10endpoint])).dependencies = [] := by
  refine claim_C10_empty_dependencies 1 c10spec (apiClassOfGroup ("default", [c10endpoint])) ?_
  rw [generateTypeDefinitions_apiClasses]
  refine List.mem_map_of_mem apiClassOfGroup ?_
  have hval : groupEndpointsByTag c10spec = [("default", [c10endpoint])] := rfl
  rw [hval]
  exact List.mem_singleton.mpr rfl

/-- C8: tag replication.  For every parsed spec and endpoint of it: the
endpoint is a member of the group for tag `t` exactly when `t` is one of
its effective tags (its own tags when non-empty, else the fallback
`"default"`); and the generated client declarations are exactly one per
group, named `Capitalize(tag) + "Api"`, containing the group's endpoints'
methods. -/
theorem claim_C8_tag_replication (fuel : Nat) (spec : ParsedSpec) (e : ApiEndpoint)
    (he : e ∈ allEndpoints spec) :
    (∀ t : String, (∃ g ∈ groupEndpointsByTag spec, g.1 = t ∧ e ∈ g.2) ↔
      t ∈ effectiveTags e) ∧
    (generateTypeDefinitions fuel spec).apiClasses =
      (groupEndpointsByTag spec).map (fun g =>
        ⟨toPascalCase g.1 ++ "Api", generateApiClass (toPascalCase g.1 ++ "Api") g.2, []⟩) ∧
    (e.tags = [] → effectiveTags e = ["default"]) ∧
    (e.tags ≠ [] → effectiveTags e = e.tags) := by
  refine ⟨fun t => mem_groupEndpointsByTag spec t e he, ?_, ?_, ?_⟩
  · rw [generateTypeDefinitions_apiClasses]
    rfl
  · intro h
    unfold effectiveTags
    rw [h]
    rfl
  · intro h
    unfold effectiveTags
    rw [if_pos (by simpa using List.length_pos.mpr h)]

def c8endpoint : ApiEndpoint := ⟨"/x", "get", "getX", "", "", [], none, [], ["A", "B"]⟩

def c8spec : ParsedSpec := ⟨⟨"API", "1.0.0", ""⟩, [], "", [("/x", ⟨[c8endpoint]⟩)], ⟨[]⟩⟩

/-- C8 witness: the endpoint tagged `["A","B"]` is in the group for tag
"A" (hence in the `AApi` client declaration). -/
theorem claim_C8_witness :
    (∃ g ∈ groupEndpointsByTag c8spec, g.1 = "A" ∧ c8endpoint ∈ g.2) ↔
      "A" ∈ effectiveTags c8endpoint := by
  refine (claim_C8_tag_replication 1 c8spec c8endpoint ?_).1 "A"
  have hval : allEndpoints c8spec = [c8endpoint] := rfl
  rw [hval]
  exact List.mem_singleton.mpr rfl

/-- C9: structural/alias/enumerated declarations are created only from the
top-level component schemas: the type declarations are a function of
`components` alone (changing `paths` — and with it every request/response
schema the normalizer stores in the IR under the synthesized
`{operationId}Request` / `{operationId}Response{statusCode}` names — leaves
them unchanged), and every emitted declaration carries the sanitized name
of a node of some component schema tree, so the endpoint-stored schemas
are never resolved into declarations. -/
theorem claim_C9_components_only (fuel : Nat) :
    (∀ spec1 spec2 : ParsedSpec, spec1.components = spec2.components →
      (generateTypeDefinitions fuel spec1).interfaces =
          (generateTypeDefinitions fuel spec2).interfaces ∧
        (generateTypeDefinitions fuel spec1).types =
          (generateTypeDefinitions fuel spec2).types ∧
        (generateTypeDefinitions fuel spec1).enums =
          (generateTypeDefinitions fuel spec2).enums) ∧
    (∀ spec : ParsedSpec, ∀ d ∈ combinedDefs (generateTypeDefinitions fuel spec),
      ∃ p ∈ spec.components.schemas, TreeName p.2 d.name) := by
  constructor
  · intro spec1 spec2 hc
    rw [generateTypeDefinitions_eq, generateTypeDefinitions_eq,
      pushApiClasses_interfaces, pushApiClasses_interfaces,
      pushApiClasses_types, pushApiClasses_types,
      pushApiClasses_enums, pushApiClasses_enums, hc]
    exact ⟨rfl, rfl, rfl⟩
  · intro spec d hd
    have hcd : combinedDefs (generateTypeDefinitions fuel spec) =
        combinedDefs (processAllSchemas fuel spec.components.schemas emptyTypeDefinitions) := by
      unfold combinedDefs
      rw [generateTypeDefinitions_eq, pushApiClasses_interfaces, pushApiClasses_types,
        pushApiClasses_enums]
    rw [hcd] at hd
    rcases processAllSchemas_provenance fuel spec.components.schemas emptyTypeDefinitions d hd
      with h | h
    · simp [combinedDefs, emptyTypeDefinitions] at h
    · exact h

def c9schema : ApiSchema := .mk "Pet" "object" none none false [] [] none none none none none

def c9pathEndpoint : ApiEndpoint :=
  ⟨"/pets", "post", "createPet", "", "", [],
    some ⟨true, "application/json",
      some (.mk "createPetRequest" "object" none none false [] [] none none none none none)⟩,
    [("200", ⟨"ok",
      some (.mk "createPetResponse200" "object" none none false [] [] none none none none none)⟩)],
    []⟩

def c9specWithPaths : ParsedSpec :=
  ⟨⟨"API", "1.0.0", ""⟩, [], "", [("/pets", ⟨[c9pathEndpoint]⟩)], ⟨[("Pet", c9schema)]⟩⟩

def c9specNoPaths : ParsedSpec :=
  ⟨⟨"API", "1.0.0", ""⟩, [], "", [], ⟨[("Pet", c9schema)]⟩⟩

/-- C9 witness: a spec whose endpoint stores request/response schemas
named "createPetRequest" / "createPetResponse200" yields exactly the same
type declarations as the same spec with no paths at all. -/
theorem claim_C9_witness :
    (generateTypeDefinitions 1 c9specWithPaths).interfaces =
        (generateTypeDefinitions 1 c9specNoPaths).interfaces ∧
      (generateTypeDefinitions 1 c9specWithPaths).types =
        (generateTypeDefinitions 1 c9specNoPaths).types ∧
      (generateTypeDefinitions 1 c9specWithPaths).enums =
        (generateTypeDefinitions 1 c9specNoPaths).enums :=
  (claim_C9_components_only 1).1 c9specWithPaths c9specNoPaths rfl

def c2schema : ApiSchema :=
  .mk "foo-bar" "enum" none (some [.str "A"]) false [] [] none none none none none

/-- C2 counterexample: resolving the identical enum node named "foo-bar"
twice within one run returns the same name both times, but the second call
appends a second declaration — the memoization looks up the raw name
"foo-bar" while the declaration was stored under the sanitized name
"Foobar", so the lookup never hits. -/
theorem claim_C2_counterexample :
    (processSchema 1 c2schema (processSchema 1 c2schema emptyTypeDefinitions).2).1 =
        (processSchema 1 c2schema emptyTypeDefinitions).1 ∧
      (processSchema 1 c2schema
          (processSchema 1 c2schema emptyTypeDefinitions).2).2.enums.map
        TypeDefinition.name = ["Foobar", "Foobar"] ∧
      (processSchema 1 c2schema (processSchema 1 c2schema emptyTypeDefinitions).2).2 ≠
        (processSchema 1 c2schema emptyTypeDefinitions).2 := by
  refine ⟨by decide, by decide, by decide⟩

/-- C2 amended: idempotence holds for every node whose name is unchanged
by `sanitizeTypeName` (in particular every name already made of word
characters starting with an uppercase letter, the usual component-schema
case): resolving the identical node a second time returns the same name
and leaves the accumulator exactly as it was. -/
theorem claim_C2_amended (fuel : Nat) (s : ApiSchema) (td : TypeDefinitions)
    (hfix : sanitizeTypeName s.name = s.name) :
    processSchema fuel s (processSchema fuel s td).2 = processSchema fuel s td := by
  cases href : s.reference with
  | some r =>
    rw [processSchema_reference fuel s td href]
    exact processSchema_reference fuel s td href
  | none =>
    cases hfind : findExistingType s.name td with
    | some t =>
      rw [processSchema_existing fuel s td href hfind]
      exact processSchema_existing fuel s td href hfind
    | none =>
      cases fuel with
      | zero =>
        rw [processSchema_zero_scalar s td href hfind]
        exact processSchema_zero_scalar s td href hfind
      | succ fuel' =>
        by_cases hemit : (s.enum.getD []).length > 0 ∨
          (s.type = "object" ∨ s.properties.length > 0) ∨
          (s.type = "array" ∧ s.items.isSome) ∨ (s.allOf.getD []).length > 0 ∨
          (s.oneOf.getD []).length > 0 ∨ (s.anyOf.getD []).length > 0
        · obtain ⟨hname, hmem⟩ := processSchema_emits fuel' s td ⟨href, hfind, hemit⟩
          have hmem' : s.name ∈ combinedNames (processSchema (fuel' + 1) s td).2 := by
            rw [← hfix]
            exact hmem
          have h2 := processSchema_after_emit (fuel' + 1) s
            (processSchema (fuel' + 1) s td).2 href hmem'
          rw [h2]
          have hx1 : (processSchema (fuel' + 1) s td).1 = s.name := hname.trans hfix
          rw [← hx1]
        · have h1 : ¬((s.enum.getD []).length > 0) := fun hc => hemit (Or.inl hc)
          have h2 : ¬(s.type = "object" ∨ s.properties.length > 0) :=
            fun hc => hemit (Or.inr (Or.inl hc))
          have h3 : ¬(s.type = "array" ∧ s.items.isSome) :=
            fun hc => hemit (Or.inr (Or.inr (Or.inl hc)))
          have h4 : ¬((s.allOf.getD []).length > 0) :=
            fun hc => hemit (Or.inr (Or.inr (Or.inr (Or.inl hc))))
          have h5 : ¬((s.oneOf.getD []).length > 0) :=
            fun hc => hemit (Or.inr (Or.inr (Or.inr (Or.inr (Or.inl hc)))))
          have h6 : ¬((s.anyOf.getD []).length > 0) :=
            fun hc => hemit (Or.inr (Or.inr (Or.inr (Or.inr (Or.inr hc)))))
          have hscalar : processSchema (fuel' + 1) s td =
              (toTsType (some s.type) s.format, td) := by
            rw [processSchema_succ_dispatch fuel' s td href hfind,
              if_neg h1, if_neg h2, if_neg h3, if_neg h4, if_neg h5, if_neg h6]
          rw [hscalar]
          exact hscalar

def c2wSchema : ApiSchema :=
  .mk "Pet" "enum" none (some [.str "A"]) false [] [] none none none none none

/-- C2 witness: the sanitization-fixed name "Pet" resolves idempotently. -/
theorem claim_C2_witness :
    sanitizeTypeName "Pet" = "Pet" ∧
      processSchema 1 c2wSchema (processSchema 1 c2wSchema emptyTypeDefinitions).2 =
        processSchema 1 c2wSchema emptyTypeDefinitions :=
  ⟨by decide, claim_C2_amended 1 c2wSchema emptyTypeDefinitions (by decide)⟩

def c3child : ApiSchema := .mk "A" "object" none none false [] [] none none none none none

def c3parent : ApiSchema :=
  .mk "A" "object" none none false [("x", c3child)] [] none none none none none

/-- C3 counterexample: one single resolution of an object schema named "A"
with a property whose child schema is also named "A" emits two structural
declarations both named "A" — the parent's existence check runs before its
children emit, and its own declaration is pushed unconditionally
afterwards. -/
theorem claim_C3_counterexample :
    combinedNames (processSchema 2 c3parent emptyTypeDefinitions).2 = ["A", "A"] ∧
      ¬ (combinedNames (processSchema 2 c3parent emptyTypeDefinitions).2).Nodup := by
  refine ⟨by decide, by decide⟩

/-- C3 amended: the name-uniqueness invariant holds at every point of a
run whose resolved schema trees are well-named: every node's name is fixed
by `sanitizeTypeName` and no node shares a name with a proper ancestor
(`GoodTree`).  Stated both as preservation along the schema-processing
fold from any uniquely-named accumulator (covering every intermediate
point) and for a full `generateTypeDefinitions` run. -/
theorem claim_C3_amended (fuel : Nat) :
    (∀ (schemas : List (String × ApiSchema)) (td : TypeDefinitions),
      (∀ p ∈ schemas, GoodTree [] p.2) → (combinedNames td).Nodup →
      (combinedNames (processAllSchemas fuel schemas td)).Nodup) ∧
    (∀ spec : ParsedSpec, (∀ p ∈ spec.components.schemas, GoodTree [] p.2) →
      (combinedNames (generateTypeDefinitions fuel spec)).Nodup) := by
  constructor
  · exact fun schemas td hg hnd => processAllSchemas_nodup fuel schemas hg td hnd
  · intro spec hg
    have hcn : combinedNames (generateTypeDefinitions fuel spec) =
        combinedNames (processAllSchemas fuel spec.components.schemas emptyTypeDefinitions) := by
      unfold combinedNames combinedDefs
      rw [generateTypeDefinitions_eq, pushApiClasses_interfaces, pushApiClasses_types,
        pushApiClasses_enums]
    rw [hcn]
    exact processAllSchemas_nodup fuel spec.components.schemas hg emptyTypeDefinitions
      (by decide)

def c3wPet : ApiSchema := .mk "Pet" "object" none none false [] [] none none none none none

def c3wTag : ApiSchema := .mk "Tag" "object" none none false [] [] none none none none none

/-- C3 witness: processing two well-named component schemas from the empty
accumulator keeps all declaration names distinct. -/
theorem claim_C3_witness :
    (combinedNames (processAllSchemas 2 [("Pet", c3wPet), ("Tag", c3wTag)]
      emptyTypeDefinitions)).Nodup := by
  refine (claim_C3_amended 2).1 [("Pet", c3wPet), ("Tag", c3wTag)] emptyTypeDefinitions
    ?_ (by decide)
  intro p hp
  rcases List.mem_cons.mp hp with h | h
  · subst h
    refine GoodTree.mk [] c3wPet (by decide) (by simp) ?_
    intro c hc
    have : schemaChildren c3wPet = [] := rfl
    rw [this] at hc
    exact absurd hc (List.not_mem_nil c)
  · rw [List.mem_singleton.mp h]
    refine GoodTree.mk [] c3wTag (by decide) (by simp) ?_
    intro c hc
    have : schemaChildren c3wTag = [] := rfl
    rw [this] at hc
    exact absurd hc (List.not_mem_nil c)

def c4enum : ApiSchema :=
  .mk "foo-bar" "enum" none (some [.str "A"]) false [] [] none none none none none

def c4obj : ApiSchema := .mk "foo.bar" "object" none none false [] [] none none none none none

/-- C4 counterexample: two differently shaped schemas named "foo-bar"
(enum) and "foo.bar" (object), both sanitizing to the type name "Foobar",
do NOT collapse onto one declaration: the second resolution looks up the
raw name "foo.bar" — never the sanitized one — misses, and emits a second
declaration named "Foobar". -/
theorem claim_C4_counterexample :
    combinedNames (processSchema 1 c4obj
        (processSchema 1 c4enum emptyTypeDefinitions).2).2 = ["Foobar", "Foobar"] ∧
      (processSchema 1 c4obj (processSchema 1 c4enum emptyTypeDefinitions).2).2 ≠
        (processSchema 1 c4enum emptyTypeDefinitions).2 := by
  refine ⟨by decide, by decide⟩

/-- C4 amended: first-wins collision holds for two schemas with the same
RAW name when that name is fixed by sanitization (and the first schema's
tree is well-named): the first emitting resolution records exactly one
declaration under the name; the second resolution — whatever shape the
second schema has, as long as it is not a reference — returns the existing
name and leaves the accumulator untouched, so the surviving declaration is
the first schema's. -/
theorem claim_C4_amended (fuel fuel2 : Nat) (s1 s2 : ApiSchema) (td : TypeDefinitions)
    (hemit : EmittingShape s1 td) (hg : GoodTree [] s1)
    (hname : s2.name = s1.name) (href2 : s2.reference = none) :
    (processSchema (fuel + 1) s1 td).1 = s1.name ∧
      processSchema fuel2 s2 (processSchema (fuel + 1) s1 td).2 =
        (s1.name, (processSchema (fuel + 1) s1 td).2) ∧
      (combinedNames (processSchema (fuel + 1) s1 td).2).count s1.name = 1 := by
  have hfix := hg.fix
  obtain ⟨hn1, hmem⟩ := processSchema_emits fuel s1 td hemit
  have hmem' : s1.name ∈ combinedNames (processSchema (fuel + 1) s1 td).2 := by
    rw [← hfix]
    exact hmem
  refine ⟨hn1.trans hfix, ?_, ?_⟩
  · have h2 := processSchema_after_emit fuel2 s2 (processSchema (fuel + 1) s1 td).2 href2
      (by rw [hname]; exact hmem')
    rw [h2, hname]
  · have hcount := processSchema_emit_count fuel s1 td hg hemit
    have hzero : (combinedNames td).count (sanitizeTypeName s1.name) = 0 := by
      rw [List.count_eq_zero, hfix]
      exact name_not_mem_of_findExistingType_none hemit.2.1
    rw [← hfix, hcount, hzero]

def c4wEnum : ApiSchema :=
  .mk "Foo" "enum" none (some [.str "A"]) false [] [] none none none none none

def c4wObj : ApiSchema := .mk "Foo" "object" none none false [] [] none none none none none

/-- C4 witness: an enum and a differently shaped object both named "Foo":
the first resolution records one declaration named "Foo"; the second
returns "Foo" and changes nothing. -/
theorem claim_C4_witness :
    (processSchema 1 c4wEnum emptyTypeDefinitions).1 = "Foo" ∧
      processSchema 1 c4wObj (processSchema 1 c4wEnum emptyTypeDefinitions).2 =
        ("Foo", (processSchema 1 c4wEnum emptyTypeDefinitions).2) ∧
      (combinedNames (processSchema 1 c4wEnum emptyTypeDefinitions).2).count "Foo" = 1 := by
  refine claim_C4_amended 0 1 c4wEnum c4wObj emptyTypeDefinitions
    ⟨rfl, rfl, Or.inl (by decide)⟩ ?_ rfl rfl
  refine GoodTree.mk [] c4wEnum (by decide) (by simp) ?_
  intro c hc
  have : schemaChildren c4wEnum = [] := rfl
  rw [this] at hc
  exact absurd hc (List.not_mem_nil c)

/-- C5: composition degeneration.  A `oneOf` composition and an `anyOf`
composition over the identical member list resolve identically — same
returned type name, same emitted alias declaration sourceText, same
accumulator — for every member list, accumulator, and remaining fields. -/
theorem claim_C5_oneOf_anyOf (fuel : Nat) (td : TypeDefinitions)
    (nm ty : String) (fmt : Option String) (en : Option (List EnumValue))
    (nl : Bool) (props : List (String × ApiSchema)) (req : List String)
    (its : Option ApiSchema) (alf : Option (List ApiSchema))
    (ms : List ApiSchema) (rf : Option String) :
    processSchema fuel (.mk nm ty fmt en nl props req its alf (some ms) none rf) td =
      processSchema fuel (.mk nm ty fmt en nl props req its alf none (some ms) rf) td := by
  cases rf with
  | some r =>
    rw [processSchema_reference fuel
        (.mk nm ty fmt en nl props req its alf (some ms) none (some r)) td rfl,
      processSchema_reference fuel
        (.mk nm ty fmt en nl props req its alf none (some ms) (some r)) td rfl]
  | none =>
    cases hfind : findExistingType nm td with
    | some t =>
      rw [processSchema_existing fuel
          (.mk nm ty fmt en nl props req its alf (some ms) none none) td rfl hfind,
        processSchema_existing fuel
          (.mk nm ty fmt en nl props req its alf none (some ms) none) td rfl hfind]
    | none =>
      cases fuel with
      | zero =>
        rw [processSchema_zero_scalar
            (.mk nm ty fmt en nl props req its alf (some ms) none none) td rfl hfind,
          processSchema_zero_scalar
            (.mk nm ty fmt en nl props req its alf none (some ms) none) td rfl hfind]
        rfl
      | succ fuel' =>
        rw [processSchema_succ_dispatch fuel'
            (.mk nm ty fmt en nl props req its alf (some ms) none none) td rfl hfind,
          processSchema_succ_dispatch fuel'
            (.mk nm ty fmt en nl props req its alf none (some ms) none) td rfl hfind]
        simp only [ApiSchema.enum, ApiSchema.type, ApiSchema.properties, ApiSchema.items,
          ApiSchema.allOf, ApiSchema.oneOf, ApiSchema.anyOf, Option.getD_some,
          Option.getD_none, List.length_nil]
        by_cases h1 : (en.getD []).length > 0
        · rw [if_pos h1, if_pos h1]
          rfl
        · rw [if_neg h1, if_neg h1]
          by_cases h2 : ty = "object" ∨ props.length > 0
          · rw [if_pos h2, if_pos h2]
            rfl
          · rw [if_neg h2, if_neg h2]
            by_cases h3 : ty = "array" ∧ its.isSome
            · rw [if_pos h3, if_pos h3]
              rfl
            · rw [if_neg h3, if_neg h3]
              by_cases h4 : (alf.getD []).length > 0
              · rw [if_pos h4, if_pos h4]
                rfl
              · rw [if_neg h4, if_neg h4]
                by_cases h5 : ms.length > 0
                · rw [if_pos h5, if_neg (by decide), if_pos h5]
                  rfl
                · rw [if_neg h5, if_neg (by decide), if_neg (by decide), if_neg h5]
                  rfl

/-- C6: enum duality.  A non-reference, not-yet-memoized schema with a
non-empty `enum` emits exactly one enumerated declaration: if every member
is textual, a closed `export enum` whose member keys are the values with
non-word characters replaced by `_` and whose member values are the
literal text; otherwise a closed literal-union alias of the
JSON-rendered values. -/
theorem claim_C6_enum_duality (fuel : Nat) (s : ApiSchema) (td : TypeDefinitions)
    (vs : List EnumValue) (href : s.reference = none)
    (hfind : findExistingType s.name td = none)
    (henum : s.enum = some vs) (hne : vs ≠ []) :
    processSchema (fuel + 1) s td =
      (sanitizeTypeName s.name,
        { td with enums := td.enums ++
          [⟨sanitizeTypeName s.name,
            if vs.all isStringValue then
              "export enum " ++ sanitizeTypeName s.name ++ " \x7b\n" ++
                concatStrings (vs.map (fun v =>
                  "  " ++ enumKeyOf v ++ " = \"" ++ strOf v ++ "\",\n")) ++ "\x7d"
            else
              "export type " ++ sanitizeTypeName s.name ++ " = " ++
                joinSep " | " (vs.map jsonStringify) ++ ";",
            []⟩] }) := by
  have hcond : (s.enum.getD []).length > 0 := by
    rw [henum]
    simpa using List.length_pos.mpr hne
  rw [processSchema_succ_dispatch fuel s td href hfind, if_pos hcond]
  unfold processEnumSchema
  rw [henum]
  rfl

def c6enumAB : ApiSchema :=
  .mk "E" "enum" none (some [.str "A", .str "B"]) false [] [] none none none none none

def c6enum123 : ApiSchema :=
  .mk "N" "enum" none (some [.num 1, .num 2, .num 3]) false [] [] none none none none none

/-- C6 witness: enum `["A","B"]` yields the enum declaration with members
`A="A"`, `B="B"`; enum `[1,2,3]` yields the closed union alias
`1 | 2 | 3`. -/
theorem claim_C6_witness :
    processSchema 1 c6enumAB emptyTypeDefinitions =
      ("E", { emptyTypeDefinitions with enums :=
        [⟨"E", "export enum E \x7b\n  A = \"A\",\n  B = \"B\",\n\x7d", []⟩] }) ∧
    processSchema 1 c6enum123 emptyTypeDefinitions =
      ("N", { emptyTypeDefinitions with enums :=
        [⟨"N", "export type N = 1 | 2 | 3;", []⟩] }) := by
  constructor
  · have h := claim_C6_enum_duality 0 c6enumAB emptyTypeDefinitions
      [.str "A", .str "B"] rfl rfl rfl (by decide)
    rw [h]
    decide
  · have h := claim_C6_enum_duality 0 c6enum123 emptyTypeDefinitions
      [.num 1, .num 2, .num 3] rfl rfl rfl (by decide)
    rw [h]
    decide
